import Mathlib

/-!
A shallow embedding of the `gabes` garbled-circuits engine.

This file models the Python package `gabes` (garbler/evaluator for Yao's
garbled circuits) in Lean 4 and proves properties of the model.

Modelling conventions:
* Python `bytes` values are `List Nat` (each element a byte value).
* The external libraries (`Crypto.Cipher.AES`, `hashlib.sha256`,
  `base64`, `pickle`, `cryptography.fernet.Fernet`) are abstracted into a
  structure `Prims` of primitive functions; the package's own code
  (`gabes/utils.py`, `gabes/crypto.py`, `gabes/wire.py`, `gabes/gate.py`,
  `gabes/circuit.py`, `gabes/garbler.py`, `gabes/ot.py`) is translated
  function by function.
* Python run-time failures (`AttributeError` on the missing `settings.R`,
  `TypeError` on an unset `pp_bit`, `UnboundLocalError`, list index errors,
  exhausted label queues) are modelled by `Option`, with `none` meaning the
  call raises.
* Randomness (`os.urandom`, `random.choice`, `Crypto.Random.random.shuffle`)
  is passed in explicitly: random byte strings are parameters, the classical
  shuffle is an arbitrary permutation of the table.
-/

namespace Gabes

/-- Model of `settings.NUM_BYTES` (the label width in bytes). -/
def NUM_BYTES : Nat := 32

/-- Model of `int.from_bytes(bs, byteorder='big')`. -/
def fromBytesBE (bs : List Nat) : Nat :=
  bs.foldl (fun a b => a * 256 + b) 0

/-- Model of `int.to_bytes(v, length=n, byteorder='big')` (big-endian, fixed width). -/
def toBytesBE : Nat → Nat → List Nat
  | 0, _ => []
  | n + 1, v => toBytesBE n (v / 256) ++ [v % 256]

/-- Model of `utils.xor`: convert both byte strings to big-endian integers, xor them,
and write the result back as `NUM_BYTES` bytes. -/
def xorBytes (b1 b2 : List Nat) : List Nat :=
  toBytesBE NUM_BYTES (fromBytesBE b1 ^^^ fromBytesBE b2)

/-- Model of `utils.get_last_bit`: `bool((label[-1] >> 7) & 1)`, the high bit of the
final byte.  (The source always applies it to non-empty strings; an empty
string is read as final byte `0` here.) -/
def get_last_bit (label : List Nat) : Bool :=
  (label.getLastD 0) >>> 7 &&& 1 == 1

/-- The all-zeros block `bytes(settings.NUM_BYTES)`. -/
def zeroBlock : List Nat := List.replicate NUM_BYTES 0

/-- A byte string of the label width: correct length, every element a byte. -/
def ValidBytes (bs : List Nat) : Prop :=
  bs.length = NUM_BYTES ∧ ∀ b ∈ bs, b < 256

instance (bs : List Nat) : Decidable (ValidBytes bs) := by
  unfold ValidBytes; infer_instance

/-- Model of `gabes.label.Label`: the byte string, the plaintext truth value it
stands for (`represents`, `None` = unknown), and the point-and-permute bit
(`None` = unset, as in classical mode). -/
structure LabelD where
  bytes : List Nat
  represents : Option Bool
  pp_bit : Option Bool
deriving DecidableEq

/-- Model of `gabes.wire.Wire`: the two labels. -/
structure WireD where
  false_label : LabelD
  true_label : LabelD
deriving DecidableEq

/-- Model of `Wire.get_label`. -/
def WireD.get_label (w : WireD) (representing : Bool) : LabelD :=
  if representing then w.true_label else w.false_label

/-- The primitives imported from outside the package: AES-ECB under a
SHA-256-derived key, SHA-256 itself, urlsafe base64, pickle for `Label`
objects, and the Fernet authenticated scheme (`fernetDec` returns `none`
exactly when `cryptography.fernet.InvalidToken` is raised). -/
structure Prims where
  aesRaw : List Nat → List Nat → List Nat
  aesRawInv : List Nat → List Nat → List Nat
  sha : List Nat → List Nat
  b64 : List Nat → List Nat
  b64dec : List Nat → List Nat
  serLabel : LabelD → List Nat
  deserLabel : List Nat → Option LabelD
  fernetEnc : List Nat → List Nat → List Nat
  fernetDec : List Nat → List Nat → Option (List Nat)

/-- Model of `AESKey.pad`: length-prefix with 4 big-endian bytes, then zero-pad to a
multiple of `size`. -/
def pad (msg : List Nat) (size : Nat) : List Nat :=
  let with_size := toBytesBE 4 msg.length ++ msg
  with_size ++ List.replicate ((size - with_size.length % size) % size) 0

/-- Model of `AESKey.unpad`: read the 4-byte length prefix `n`; if `n ≠ 0` return
bytes `4` to `n + 4`, else return the input unchanged. -/
def unpad (msg : List Nat) : List Nat :=
  let n := fromBytesBE (msg.take 4)
  if n ≠ 0 then (msg.drop 4).take n else msg

/-- Model of `AESKey(keyInput).encrypt(msg, to_base64, pad)`.  The AES key is
`sha256(keyInput)`. -/
def AESKey.encrypt (P : Prims) (keyInput msg : List Nat)
    (to_base64 usePad : Bool) : List Nat :=
  let m := if usePad then pad msg 16 else msg
  let cip := P.aesRaw (P.sha keyInput) m
  if to_base64 then P.b64 cip else cip

/-- Model of `AESKey(keyInput).decrypt(msg, from_base64, unpad)`. -/
def AESKey.decrypt (P : Prims) (keyInput msg : List Nat)
    (from_base64 useUnpad : Bool) : List Nat :=
  let m := if from_base64 then P.b64dec msg else msg
  let t := P.aesRawInv (P.sha keyInput) m
  if useUnpad then unpad t else t

/-- Model of `crypto.generate_zero_ciphertext(left_label, right_label)`:
`k2.decrypt(k1.decrypt(Z, unpad=False), unpad=False)` where `k1`, `k2` are
keyed by the base64 forms of the two labels and `Z` is the zero block. -/
def generate_zero_ciphertext (P : Prims) (left_label right_label : LabelD) :
    List Nat :=
  AESKey.decrypt P (P.b64 right_label.bytes)
    (AESKey.decrypt P (P.b64 left_label.bytes) zeroBlock false false)
    false false

/-- Model of `gabes.settings`: the six optimization flags and the module-level
free-XOR offset `R`.  `R` is `none` until `Circuit.__init__` assigns it
(and reading it while `none` is the Python `AttributeError`). -/
structure Settings where
  CLASSICAL : Bool
  POINT_AND_PERMUTE : Bool
  GRR3 : Bool
  FREE_XOR : Bool
  FLEXOR : Bool
  HALF_GATES : Bool
  R : Option (List Nat)
deriving DecidableEq

def classicalS : Settings := ⟨true, false, false, false, false, false, none⟩
def papS : Settings := ⟨false, true, false, false, false, false, none⟩
def grr3S : Settings := ⟨false, false, true, false, false, false, none⟩
def freeXorS (R : List Nat) : Settings :=
  ⟨false, false, false, true, false, false, some R⟩
def flexorS : Settings := ⟨false, false, false, false, true, false, none⟩
def halfGatesS (R : List Nat) : Settings :=
  ⟨false, false, false, false, false, true, some R⟩

/-- Model of `Wire.__init__`: fresh random bytes `fb`, `tb` for the two labels and
the random pp-bit choice `b`.  Classical mode leaves the pp-bits unset;
every other mode gives the false label `b` and the true label `¬ b`.
FreeXOR and half-gates additionally overwrite the true label's bytes with
`xor(fb, R)` (raising if `settings.R` is unset). -/
def mkWire (S : Settings) (fb tb : List Nat) (b : Bool) : Option WireD :=
  let w : WireD :=
    if S.CLASSICAL then
      ⟨⟨fb, some false, none⟩, ⟨tb, some true, none⟩⟩
    else
      ⟨⟨fb, some false, some b⟩, ⟨tb, some true, some (!b)⟩⟩
  if S.FREE_XOR || S.HALF_GATES then
    match S.R with
    | none => none
    | some R =>
        some { w with true_label := { w.true_label with bytes := xorBytes fb R } }
  else some w

/-- The gate types of `Gate.gates`. -/
inductive GType
  | AND
  | OR
  | XOR
deriving DecidableEq

/-- Model of `Gate.evaluate_gate`. -/
def evaluate_gate : GType → Bool → Bool → Bool
  | .AND, a, b => a && b
  | .XOR, a, b => Bool.xor a b
  | .OR, a, b => a || b

/-- Python `int(pp_bit)` on a `bool`; arithmetic on an unset (`None`)
pp-bit raises, hence `Option`. -/
def ppNat : Option Bool → Option Nat
  | some b => some (if b then 1 else 0)
  | none => none

/-- A gate's garbled table: up to four slots, Python `None` = empty slot. -/
abbrev Table := List (Option (List Nat))

/-- Result of garbling a gate: the (possibly mutated) left/right/output
wires and the table. -/
structure GRes where
  left : WireD
  right : WireD
  out : WireD
  table : Table
deriving DecidableEq

/-- One entry of `Gate.classical_garble`: Fernet-encrypt the pickled output
label under the right key, then under the left key. -/
def classical_entry (P : Prims) (gt : GType) (ow : WireD) (ll rl : LabelD) :
    Option (List Nat) := do
  let i1 ← ll.represents
  let i2 ← rl.represents
  let ol := ow.get_label (evaluate_gate gt i1 i2)
  pure (P.fernetEnc (P.b64 ll.bytes) (P.fernetEnc (P.b64 rl.bytes) (P.serLabel ol)))

/-- Model of `Gate.classical_garble` before the shuffle: the four entries in the
source's loop order (left false/true × right false/true).  The uniform
shuffle is modelled in the theorems by an arbitrary permutation. -/
def classical_garble (P : Prims) (gt : GType) (lw rw ow : WireD) :
    Option (List (List Nat)) := do
  let e1 ← classical_entry P gt ow lw.false_label rw.false_label
  let e2 ← classical_entry P gt ow lw.false_label rw.true_label
  let e3 ← classical_entry P gt ow lw.true_label rw.false_label
  let e4 ← classical_entry P gt ow lw.true_label rw.true_label
  pure [e1, e2, e3, e4]

/-- One entry of the point-and-permute style garbling: AES-encrypt the
pickled output label under the right key, then under the left key
(optionally base64-encoding the result, as GRR3 does). -/
def pap_entry (P : Prims) (gt : GType) (ow : WireD) (ll rl : LabelD)
    (toB64 : Bool) : Option (List Nat) := do
  let i1 ← ll.represents
  let i2 ← rl.represents
  let ol := ow.get_label (evaluate_gate gt i1 i2)
  pure (AESKey.encrypt P (P.b64 ll.bytes)
    (AESKey.encrypt P (P.b64 rl.bytes) (P.serLabel ol) false true) toB64 true)

/-- Model of `Gate.point_and_permute_garble`: a 4-slot table indexed by
`2·left.pp_bit + right.pp_bit`. -/
def point_and_permute_garble (P : Prims) (gt : GType) (lw rw ow : WireD) :
    Option Table := do
  let t0 : Table := List.replicate 4 none
  let put := fun (t : Table) (ll rl : LabelD) => do
    let pl ← ppNat ll.pp_bit
    let pr ← ppNat rl.pp_bit
    let e ← pap_entry P gt ow ll rl false
    pure (t.set (2 * pl + pr) (some e))
  let t1 ← put t0 lw.false_label rw.false_label
  let t2 ← put t1 lw.false_label rw.true_label
  let t3 ← put t2 lw.true_label rw.false_label
  put t3 lw.true_label rw.true_label

/-- Python truthiness of an `Option Bool` (`not x` is false only for
`some true`). -/
def optTrue : Option Bool → Bool
  | some true => true
  | _ => false

/-- Model of `Gate.set_zero_ciphertext`: pick the left/right labels whose pp-bit is
falsy, make the matching output label the zero-ciphertext decryption, and
derive both output pp-bits from its last bit. -/
def set_zero_ciphertext (P : Prims) (gt : GType) (lw rw ow : WireD) :
    Option WireD := do
  let pp_left := if optTrue lw.false_label.pp_bit then lw.true_label else lw.false_label
  let pp_right := if optTrue rw.false_label.pp_bit then rw.true_label else rw.false_label
  let output_label := generate_zero_ciphertext P pp_left pp_right
  let i1 ← pp_left.represents
  let i2 ← pp_right.represents
  let logic_value := evaluate_gate gt i1 i2
  let ppb := get_last_bit output_label
  if logic_value then
    pure { ow with
      true_label := { ow.true_label with bytes := output_label, pp_bit := some ppb },
      false_label := { ow.false_label with pp_bit := some (!ppb) } }
  else
    pure { ow with
      false_label := { ow.false_label with bytes := output_label, pp_bit := some ppb },
      true_label := { ow.true_label with pp_bit := some (!ppb) } }

/-- Model of `Gate.grr3_garble`: set the zero ciphertext on the output wire, then
fill a 3-slot table (base64-encoded entries) for the pp-bit combinations
other than `(0, 0)` at index `2·ppL + ppR − 1`. -/
def grr3_garble (P : Prims) (gt : GType) (lw rw ow : WireD) : Option GRes := do
  let ow' ← set_zero_ciphertext P gt lw rw ow
  let t0 : Table := List.replicate 3 none
  let put := fun (t : Table) (ll rl : LabelD) =>
    if optTrue ll.pp_bit || optTrue rl.pp_bit then do
      let pl ← ppNat ll.pp_bit
      let pr ← ppNat rl.pp_bit
      let e ← pap_entry P gt ow' ll rl true
      pure (t.set (2 * pl + pr - 1) (some e))
    else pure t
  let t1 ← put t0 lw.false_label rw.false_label
  let t2 ← put t1 lw.false_label rw.true_label
  let t3 ← put t2 lw.true_label rw.false_label
  let t4 ← put t3 lw.true_label rw.true_label
  pure ⟨lw, rw, ow', t4⟩

/-- Model of `Gate.update_output_wire`: overwrite the output labels' bytes and set
both pp-bits from the last bits. -/
def update_output_wire (ow : WireD) (fl tl : List Nat) : WireD :=
  { false_label := { ow.false_label with bytes := fl, pp_bit := some (get_last_bit fl) },
    true_label := { ow.true_label with bytes := tl, pp_bit := some (get_last_bit tl) } }

/-- Model of `Gate.modify_pp_bits`: reset all six pp-bits from the last bits of the
transformed labels `A0'`, `B0'`, `C0'`. -/
def modify_pp_bits (lw rw ow : WireD) (A0t B0t C0t : List Nat) :
    WireD × WireD × WireD :=
  let l_pp := get_last_bit A0t
  let r_pp := get_last_bit B0t
  let o_pp := get_last_bit C0t
  (⟨{ lw.false_label with pp_bit := some l_pp },
    { lw.true_label with pp_bit := some (!l_pp) }⟩,
   ⟨{ rw.false_label with pp_bit := some r_pp },
    { rw.true_label with pp_bit := some (!r_pp) }⟩,
   ⟨{ ow.false_label with pp_bit := some o_pp },
    { ow.true_label with pp_bit := some (!o_pp) }⟩)

/-- Model of `Gate.free_xor_garble`.  XOR gates: the output labels become
`A0 ⊕ B0` and `A0 ⊕ B0 ⊕ R` (reading the module-level `R`, which raises
when unset) and the current table is kept as it is; other gates fall
through to GRR3 or point-and-permute as the flags dictate. -/
def free_xor_garble (S : Settings) (P : Prims) (gt : GType)
    (lw rw ow : WireD) (tbl : Table) : Option GRes :=
  if gt = GType.XOR then do
    let R ← S.R
    let A0 := lw.false_label.bytes
    let B0 := rw.false_label.bytes
    let C0 := xorBytes A0 B0
    let C1 := xorBytes (xorBytes A0 B0) R
    let ppb := get_last_bit C0
    pure ⟨lw, rw,
      ⟨{ ow.false_label with bytes := C0, pp_bit := some ppb },
       { ow.true_label with bytes := C1, pp_bit := some (!ppb) }⟩, tbl⟩
  else if S.GRR3 then grr3_garble P gt lw rw ow
  else do
    let t ← point_and_permute_garble P gt lw rw ow
    pure ⟨lw, rw, ow, t⟩

/-- Model of `utils.adjust_wire_offset`: resample the true label's bytes from the
random stream until the two last bits differ.  The source's `while` loop is
given explicit fuel; running out of fuel is `none`. -/
def adjust_wire_offset (rand : Nat → List Nat) : Nat → Nat → WireD → Option WireD
  | 0, _, w =>
      if get_last_bit w.false_label.bytes = get_last_bit w.true_label.bytes
      then none else some w
  | fuel + 1, i, w =>
      if get_last_bit w.false_label.bytes = get_last_bit w.true_label.bytes then
        adjust_wire_offset rand fuel (i + 1)
          { w with true_label := { w.true_label with bytes := rand i } }
      else some w

/-- Model of `Gate.flexor_garble` for XOR gates: adjust the output wire, compute the
offsets `R1`, `R2`, `R3` and the transformed labels, overwrite the output
labels and all pp-bits, and fill the 4-slot table following the source's
branch chain (including Python's chained `R1 != R2 != R3`, which means
`R1 ≠ R2 and R2 ≠ R3`).  Other gates fall through to GRR3 or
point-and-permute. -/
def flexor_garble (S : Settings) (P : Prims) (rand : Nat → List Nat)
    (fuel : Nat) (gt : GType) (lw rw ow : WireD) : Option GRes :=
  if gt = GType.XOR then do
    let tbl : Table := List.replicate 4 none
    let out ← adjust_wire_offset rand fuel 0 ow
    let A0 := lw.false_label.bytes
    let A1 := lw.true_label.bytes
    let B0 := rw.false_label.bytes
    let B1 := rw.true_label.bytes
    let C0 := out.false_label.bytes
    let C1 := out.true_label.bytes
    let R1 := xorBytes A0 A1
    let R2 := xorBytes B0 B1
    let R3 := xorBytes C0 C1
    let A0t := AESKey.decrypt P A0 zeroBlock false true
    let B0t := AESKey.decrypt P B0 zeroBlock false true
    let C0t := xorBytes A0t B0t
    let C1t := xorBytes (xorBytes A0t B0t) R3
    let A1t := xorBytes A0t R3
    let B1t := xorBytes B0t R3
    let (lw', rw', out') := modify_pp_bits lw rw out A0t B0t C0t
    let out2 : WireD :=
      ⟨{ out'.false_label with bytes := C0t },
       { out'.true_label with bytes := C1t }⟩
    if R1 = R2 ∧ R2 = R3 then
      free_xor_garble S P GType.XOR lw' rw' out2 tbl
    else if R1 ≠ R2 ∧ R2 ≠ R3 then do
      let pl ← ppNat lw'.true_label.pp_bit
      let pr ← ppNat rw'.true_label.pp_bit
      let tbl := tbl.set pl (some (AESKey.encrypt P A1 A1t false true))
      let tbl := tbl.set (pr + 2) (some (AESKey.encrypt P B1 B1t false true))
      pure ⟨lw', rw', out2, tbl⟩
    else if R1 = R3 then do
      let pr ← ppNat rw'.true_label.pp_bit
      let tbl := tbl.set (pr + 2) (some (AESKey.encrypt P B1 B1t false true))
      pure ⟨lw', rw', out2, tbl⟩
    else if R2 = R3 then do
      let pl ← ppNat lw'.true_label.pp_bit
      let tbl := tbl.set pl (some (AESKey.encrypt P A1 A1t false true))
      pure ⟨lw', rw', out2, tbl⟩
    else
      pure ⟨lw', rw', out2, tbl⟩
  else if S.GRR3 then grr3_garble P gt lw rw ow
  else do
    let t ← point_and_permute_garble P gt lw rw ow
    pure ⟨lw, rw, ow, t⟩

/-- Model of `Gate.half_gates_garble` for AND gates: the generator and evaluator
half-gate entries and the output labels `C_G ⊕ C_E`, `C_G ⊕ C_E ⊕ R`.
Other gates fall through to `free_xor_garble`. -/
def half_gates_garble (S : Settings) (P : Prims) (gt : GType)
    (lw rw ow : WireD) (tbl : Table) : Option GRes :=
  if gt = GType.AND then do
    let p_a ← lw.false_label.pp_bit
    let p_b ← rw.false_label.pp_bit
    let R ← S.R
    let e1 := xorBytes (P.sha lw.false_label.bytes) (P.sha lw.true_label.bytes)
    let entry1 := if p_b then xorBytes e1 R else e1
    let cg0 := P.sha lw.false_label.bytes
    let C0 := if p_a then xorBytes cg0 entry1 else cg0
    let entry2 := xorBytes
      (xorBytes (P.sha rw.false_label.bytes) (P.sha rw.true_label.bytes))
      lw.false_label.bytes
    let ce0 := P.sha rw.false_label.bytes
    let C0e := if p_b then xorBytes ce0 (xorBytes entry2 lw.false_label.bytes) else ce0
    let out := update_output_wire ow (xorBytes C0 C0e)
      (xorBytes (xorBytes C0 C0e) R)
    pure ⟨lw, rw, out, [some entry1, some entry2]⟩
  else free_xor_garble S P gt lw rw ow tbl

/-- Model of `Gate.garble`: dispatch on the flags in source order.  `shuf` is the
uniform shuffle applied to the classical table; fresh gates start with an
empty table. -/
def gate_garble (S : Settings) (P : Prims)
    (shuf : List (List Nat) → List (List Nat)) (rand : Nat → List Nat)
    (fuel : Nat) (gt : GType) (lw rw ow : WireD) : Option GRes :=
  if S.CLASSICAL then do
    let t ← classical_garble P gt lw rw ow
    pure ⟨lw, rw, ow, (shuf t).map some⟩
  else if S.POINT_AND_PERMUTE then do
    let t ← point_and_permute_garble P gt lw rw ow
    pure ⟨lw, rw, ow, t⟩
  else if S.FREE_XOR then free_xor_garble S P gt lw rw ow []
  else if S.FLEXOR then flexor_garble S P rand fuel gt lw rw ow
  else if S.GRR3 then grr3_garble P gt lw rw ow
  else if S.HALF_GATES then half_gates_garble S P gt lw rw ow []
  else pure ⟨lw, rw, ow, []⟩

/-- The decryption chain `Gate.classical_ungarble` tries on one table
entry: Fernet-decrypt under the garbler's key, then the evaluator's key,
then unpickle.  `none` is the swallowed `InvalidToken`.  (A Fernet success
always unpickles back to the pickled label, so the unpickling step cannot
fail when the entry came from `classical_garble`.) -/
def classical_try (P : Prims) (g e : LabelD) (entry : List Nat) :
    Option LabelD := do
  let m1 ← P.fernetDec (P.b64 g.bytes) entry
  let m2 ← P.fernetDec (P.b64 e.bytes) m1
  P.deserLabel m2

/-- One iteration of `Gate.classical_ungarble`'s loop: a successful
decryption overwrites `output_label`, a failure leaves it. -/
def classical_step (P : Prims) (g e : LabelD) (acc : Option LabelD)
    (entry : Option (List Nat)) : Option LabelD :=
  match entry with
  | none => acc
  | some ct =>
      match classical_try P g e ct with
      | some l => some l
      | none => acc

/-- Model of `Gate.classical_ungarble`: try every entry, keeping the most recent
success (`output_label` is overwritten on each successful decryption); if
no entry ever succeeds the final `return output_label` raises
`UnboundLocalError`, modelled as `none`. -/
def classical_ungarble (P : Prims) (g e : LabelD) (tbl : Table) :
    Option LabelD :=
  tbl.foldl (classical_step P g e) none

/-- Model of `Gate.point_and_permute_ungarble`: single decryption of the entry at
index `2·left.pp_bit + right.pp_bit`. -/
def point_and_permute_ungarble (P : Prims) (g e : LabelD) (tbl : Table) :
    Option LabelD := do
  let pl ← ppNat g.pp_bit
  let pr ← ppNat e.pp_bit
  let entry ← (tbl.get? (2 * pl + pr)).join
  P.deserLabel (AESKey.decrypt P (P.b64 e.bytes)
    (AESKey.decrypt P (P.b64 g.bytes) entry false true) false true)

/-- Model of `Gate.grr3_ungarble`: pp-bits `(0,0)` decrypt the zero block pad-free
into a fresh label; otherwise decrypt the base64 table entry at
`2·ppL + ppR − 1`. -/
def grr3_ungarble (P : Prims) (g e : LabelD) (tbl : Table) :
    Option LabelD := do
  let pl ← g.pp_bit
  let pr ← e.pp_bit
  if !pl && !pr then
    let bytes := AESKey.decrypt P (P.b64 e.bytes)
      (AESKey.decrypt P (P.b64 g.bytes) zeroBlock false false) false false
    pure ⟨bytes, none, some (get_last_bit bytes)⟩
  else do
    let pln ← ppNat g.pp_bit
    let prn ← ppNat e.pp_bit
    let entry ← (tbl.get? (2 * pln + prn - 1)).join
    P.deserLabel (AESKey.decrypt P (P.b64 e.bytes)
      (AESKey.decrypt P (P.b64 g.bytes) entry true true) false true)

/-- Model of `Gate.free_xor_ungarble`: XOR gates xor the two labels; other gates
fall through. -/
def free_xor_ungarble (S : Settings) (P : Prims) (gt : GType)
    (g e : LabelD) (tbl : Table) : Option LabelD :=
  if gt = GType.XOR then
    let bytes := xorBytes g.bytes e.bytes
    some ⟨bytes, none, some (get_last_bit bytes)⟩
  else if S.GRR3 then grr3_ungarble P g e tbl
  else point_and_permute_ungarble P g e tbl

/-- Model of `Gate.transform_label`: decrypt the table entry at `pp_bit`
(garbler side) or `pp_bit + 2` (evaluator side), falling back to the zero
block when the slot is empty; the key is the raw label bytes. -/
def transform_label (P : Prims) (tbl : Table) (l : LabelD)
    (garbler : Bool) : Option LabelD := do
  let pp ← ppNat l.pp_bit
  let slot ← tbl.get? (if garbler then pp else pp + 2)
  let entry := match slot with
    | none => zeroBlock
    | some t => t
  pure { l with bytes := AESKey.decrypt P l.bytes entry false true }

/-- Model of `Gate.flexor_ungarble`: transform both labels through the table, then
free-XOR ungarble; non-XOR gates fall through. -/
def flexor_ungarble (S : Settings) (P : Prims) (gt : GType)
    (g e : LabelD) (tbl : Table) : Option LabelD :=
  if gt = GType.XOR then do
    let g' ← transform_label P tbl g true
    let e' ← transform_label P tbl e false
    free_xor_ungarble S P GType.XOR g' e' tbl
  else if S.GRR3 then grr3_ungarble P g e tbl
  else point_and_permute_ungarble P g e tbl

/-- Model of `Gate.half_gates_ungarble` for AND gates; others fall through to
free-XOR ungarbling. -/
def half_gates_ungarble (S : Settings) (P : Prims) (gt : GType)
    (g e : LabelD) (tbl : Table) : Option LabelD :=
  if gt = GType.AND then do
    let s_a ← g.pp_bit
    let s_b ← e.pp_bit
    let entry1 ← (tbl.get? 0).join
    let entry2 ← (tbl.get? 1).join
    let gen := P.sha g.bytes
    let eva := P.sha e.bytes
    let cg := if s_a then xorBytes gen entry1 else gen
    let ce := if s_b then xorBytes eva (xorBytes entry2 g.bytes) else eva
    let bytes := xorBytes cg ce
    pure ⟨bytes, none, some (get_last_bit bytes)⟩
  else free_xor_ungarble S P gt g e tbl

/-- Model of `Gate.ungarble`: dispatch on the flags in source order. -/
def gate_ungarble (S : Settings) (P : Prims) (gt : GType) (g e : LabelD)
    (tbl : Table) : Option LabelD :=
  if S.CLASSICAL then classical_ungarble P g e tbl
  else if S.POINT_AND_PERMUTE then point_and_permute_ungarble P g e tbl
  else if S.FREE_XOR then free_xor_ungarble S P gt g e tbl
  else if S.FLEXOR then flexor_ungarble S P gt g e tbl
  else if S.GRR3 then grr3_ungarble P g e tbl
  else if S.HALF_GATES then half_gates_ungarble S P gt g e tbl
  else none

/-- A parsed circuit before garbling: a full binary tree of gates
(`_separate` only produces leaf gates with two identifier wires, or inner
gates with two gate children), decorated with the randomly created wires.
Inner gates do not own left/right wires: `_build_gate` replaces them by the
children's output wires. -/
inductive RawCirc
  | leaf (gt : GType) (lw rw ow : WireD)
  | node (gt : GType) (l r : RawCirc) (ow : WireD)
deriving DecidableEq

/-- A garbled circuit: every gate keeps its (final) output wire and its
garbled table; leaf gates also keep their input wires. -/
inductive GCirc
  | leaf (gt : GType) (lw rw ow : WireD) (tbl : Table)
  | node (gt : GType) (l r : GCirc) (ow : WireD) (tbl : Table)
deriving DecidableEq

/-- The output wire of a (sub)circuit's root gate. -/
def GCirc.out : GCirc → WireD
  | .leaf _ _ _ ow _ => ow
  | .node _ _ _ ow _ => ow

/-- Replace the root gate's output wire (a parent's garbling can mutate the
shared wire object, e.g. FleXOR's `modify_pp_bits`). -/
def GCirc.setOut : GCirc → WireD → GCirc
  | .leaf gt lw rw _ tbl, w => .leaf gt lw rw w tbl
  | .node gt l r _ tbl, w => .node gt l r w tbl

/-- Model of `Circuit._build_tree`: children are built (and garbled) before the
parent garbles, and the parent's input wires are the children's output
wires — the same objects, so the parent's mutations flow back. -/
def garbleCirc (S : Settings) (P : Prims)
    (shuf : List (List Nat) → List (List Nat)) (rand : Nat → List Nat)
    (fuel : Nat) : RawCirc → Option GCirc
  | .leaf gt lw rw ow => do
      let res ← gate_garble S P shuf rand fuel gt lw rw ow
      pure (.leaf gt res.left res.right res.out res.table)
  | .node gt l r ow => do
      let gl ← garbleCirc S P shuf rand fuel l
      let gr ← garbleCirc S P shuf rand fuel r
      let res ← gate_garble S P shuf rand fuel gt gl.out gr.out ow
      pure (.node gt (gl.setOut res.left) (gr.setOut res.right) res.out res.table)

/-- Model of `Circuit.get_input_wires`: the leaves in post-order, each contributing
`[left_wire, right_wire]`. -/
def inputWires : GCirc → List WireD
  | .leaf _ lw rw _ _ => [lw, rw]
  | .node _ l r _ _ => inputWires l ++ inputWires r

/-- The plaintext meaning of the circuit: evaluate on a queue of input
bits, consumed two per leaf in the garbler's input-wire order.  Returns
the value and the remaining queue. -/
def evalPlain : GCirc → List Bool → Option (Bool × List Bool)
  | .leaf gt _ _ _ _, bits => do
      let a ← bits.head?
      let b ← bits.tail.head?
      pure (evaluate_gate gt a b, bits.tail.tail)
  | .node gt l r _ _, bits => do
      let (va, bits1) ← evalPlain l bits
      let (vb, bits2) ← evalPlain r bits1
      pure (evaluate_gate gt va vb, bits2)

/-- A node's position in the tree: the list of turns from the root
(`false` = first child, `true` = second child). -/
abbrev Path := List Bool

/-- The nodes at a given level, left to right, with their paths — one group
of `anytree.LevelOrderGroupIter`. -/
def nodesAtLevel : GCirc → Nat → List (Path × GCirc)
  | c, 0 => [([], c)]
  | .leaf _ _ _ _ _, _ + 1 => []
  | .node _ l r _ _, d + 1 =>
      (nodesAtLevel l d).map (fun p => (false :: p.1, p.2)) ++
      (nodesAtLevel r d).map (fun p => (true :: p.1, p.2))

/-- Height of the tree (deepest level index). -/
def GCirc.depth : GCirc → Nat
  | .leaf _ _ _ _ _ => 0
  | .node _ l r _ _ => 1 + max l.depth r.depth

/-- Look up the `chosen_label` recorded for a path. -/
def lookupChosen (st : List (Path × LabelD)) (p : Path) : Option LabelD :=
  (st.find? (fun q => q.1 == p)).map (fun q => q.2)

/-- Evaluator state while reconstructing: the queue of input labels and the
`chosen_label`s recorded on the gates so far. -/
structure RState where
  queue : List LabelD
  chosen : List (Path × LabelD)

/-- One gate of `Circuit.reconstruct`: leaves pop the next two labels from
the queue, inner gates take the children's `chosen_label`s; `ungarble`
produces this gate's `chosen_label`. -/
def reconStep (S : Settings) (P : Prims) (st : RState)
    (pg : Path × GCirc) : Option RState :=
  match pg.2 with
  | .leaf gt _ _ _ tbl => do
      let gl ← st.queue.head?
      let el ← st.queue.tail.head?
      let ol ← gate_ungarble S P gt gl el tbl
      pure ⟨st.queue.tail.tail, (pg.1, ol) :: st.chosen⟩
  | .node gt _ _ _ tbl => do
      let gl ← lookupChosen st.chosen (pg.1 ++ [false])
      let el ← lookupChosen st.chosen (pg.1 ++ [true])
      let ol ← gate_ungarble S P gt gl el tbl
      pure ⟨st.queue, (pg.1, ol) :: st.chosen⟩

/-- Model of `Circuit.reconstruct`: traverse the levels deepest first (the reversed
`LevelOrderGroupIter`), left to right within a level, and return the root's
`chosen_label`. -/
def reconstruct (S : Settings) (P : Prims) (c : GCirc)
    (labels : List LabelD) : Option LabelD := do
  let lvls := (((List.range (c.depth + 1)).map (nodesAtLevel c))).reverse
  let st ← lvls.foldlM (fun st lvl => lvl.foldlM (reconStep S P) st)
    (⟨labels, []⟩ : RState)
  lookupChosen st.chosen []

/-- A gate of the sanitized circuit `Circuit.clean` sends: wire references
replaced by `None`, table kept. -/
structure CleanGate where
  gt : GType
  left_wire : Option WireD
  right_wire : Option WireD
  output_wire : Option WireD
  table : Table
deriving DecidableEq

/-- Model of `Circuit.clean`: deep-copy the tree and blank every gate's wires
(listed here in `anytree.PreOrderIter` order). -/
def cleanGates : GCirc → List CleanGate
  | .leaf gt _ _ _ tbl => [⟨gt, none, none, none, tbl⟩]
  | .node gt l r _ tbl => ⟨gt, none, none, none, tbl⟩ :: (cleanGates l ++ cleanGates r)

/-- The `Label` objects reachable in a list of sanitized gates (through
their wire references). -/
def cleanLabels (gs : List CleanGate) : List LabelD :=
  gs.foldr (fun g acc =>
    (match g.left_wire with
     | none => []
     | some w => [w.false_label, w.true_label]) ++
    (match g.right_wire with
     | none => []
     | some w => [w.false_label, w.true_label]) ++
    (match g.output_wire with
     | none => []
     | some w => [w.false_label, w.true_label]) ++ acc) []

/-- What `garbler.hand_over_labels` sends for one input wire: the chosen
label as-is when the garbler supplies the wire (`some bit`), else the two
deep-copied labels fed into the oblivious transfer with `represents`
cleared. -/
inductive SentMsg
  | plain (l : LabelD)
  | ot (m0 m1 : LabelD)
deriving DecidableEq

/-- Model of `garbler.hand_over_labels` over the input wires in circuit order.
`some bit` means the wire's identifier is among the garbler's inputs and
`bit` is the chosen truth value (`chosen_bit == '1'`). -/
def hand_over_labels (ws : List (WireD × Option Bool)) : List SentMsg :=
  ws.map (fun wb =>
    match wb.2 with
    | some bit =>
        .plain (if bit then wb.1.true_label else wb.1.false_label)
    | none =>
        .ot { wb.1.false_label with represents := none }
          { wb.1.true_label with represents := none })

/-- Model of `ot.evaluator_ot`, step 3: `v = (x_b + pow(k, e, n)) % n`. -/
def evaluator_v (n e k xb : Nat) : Nat := (xb + k ^ e % n) % n

/-- Model of `ot.garbler_ot`, step 4: `pow(v - x, d, n)` — Python reduces the
possibly negative base mod `n` first. -/
def ot_k (n d v x : Nat) : Nat := (((v : Int) - (x : Int)) ^ d % (n : Int)).toNat

/-- The full 1-out-of-2 OT exchange, `garbler_ot` composed with
`evaluator_ot`, for messages of any serializable type: the garbler
serializes `m0`, `m1`, converts to big-endian integers, and sends them
masked by `k0`, `k1`; the evaluator subtracts `k` and re-reads the byte
string of the stated size (`int.to_bytes` raises on a negative or
oversized value, hence `none`). -/
def ot_exchange {α : Type} (ser : α → List Nat) (deser : List Nat → Option α)
    (p q e d x0 x1 k : Nat) (m0 m1 : α) (b : Bool) : Option α :=
  let n := p * q
  let v := evaluator_v n e k (if b then x1 else x0)
  let k0 := ot_k n d v x0
  let k1 := ot_k n d v x1
  let bytes_m0 := ser m0
  let bytes_m1 := ser m1
  let t0 := fromBytesBE bytes_m0 + k0
  let t1 := fromBytesBE bytes_m1 + k1
  let chosen_t := if b then t1 else t0
  let chosen_size := if b then bytes_m1.length else bytes_m0.length
  let m : Int := (chosen_t : Int) - (k : Int)
  if 0 ≤ m ∧ m.toNat < 256 ^ chosen_size then
    deser (toBytesBE chosen_size m.toNat)
  else none

/-- A concrete instance of the external primitives used to run the model on
explicit inputs: the block cipher and Fernet are the identity bijection on
byte strings (a legal cipher), base64 and SHA-256 are the identity, and
pickling a label is an explicit injective byte encoding. -/
def encOB : Option Bool → Nat
  | none => 0
  | some false => 1
  | some true => 2

def decOB : Nat → Option Bool
  | 0 => none
  | 1 => some false
  | _ => some true

def serLabelC (l : LabelD) : List Nat :=
  encOB l.represents :: encOB l.pp_bit :: l.bytes

def deserLabelC : List Nat → Option LabelD
  | r :: p :: rest => some ⟨rest, decOB r, decOB p⟩
  | _ => none

def idPrims : Prims where
  aesRaw := fun _ m => m
  aesRawInv := fun _ m => m
  sha := fun m => m
  b64 := fun m => m
  b64dec := fun m => m
  serLabel := serLabelC
  deserLabel := deserLabelC
  fernetEnc := fun k m => k ++ m
  fernetDec := fun k c =>
    if c.take k.length = k then some (c.drop k.length) else none

/-- Model of `Circuit.__init__` for FreeXOR / half-gates: resample
`R = os.urandom(NUM_BYTES)` until its last bit is 1.  The random stream is
explicit; the hypothesis says some draw has the bit set (the source's
`while True` loop terminates with probability 1). -/
def sample_R (rand : Nat → List Nat)
    (h : ∃ n, get_last_bit (rand n) = true) : List Nat :=
  rand (Nat.find h)

/-- The free-XOR wire invariant: `true_label.bytes = false_label.bytes ⊕ R`. -/
def OffsetInv (R : List Nat) (w : WireD) : Prop :=
  w.true_label.bytes = xorBytes w.false_label.bytes R

/-- The point-and-permute invariant: the two labels carry opposing pp-bits. -/
def PpOpp (w : WireD) : Prop :=
  ∃ b, w.false_label.pp_bit = some b ∧ w.true_label.pp_bit = some (!b)

/-- Number of filled (non-`None`) slots in a garbled table. -/
def countSome (t : Table) : Nat :=
  t.foldr (fun e n => match e with | some _ => n + 1 | none => n) 0

/-- A concrete label: 32 copies of one byte value. -/
def mkLab (v : Nat) (rep pp : Option Bool) : LabelD :=
  ⟨List.replicate 32 v, rep, pp⟩

/-- A concrete wire with pp-bits `0`/`1`. -/
def mkW (fv tv : Nat) : WireD :=
  ⟨mkLab fv (some false) (some false), mkLab tv (some true) (some true)⟩

/-- The unbalanced test circuit `(A AND B) AND ((C OR D) AND (E AND F))`:
a shallow leaf gate to the left of a deeper subtree. -/
def c1Raw : RawCirc :=
  .node .AND
    (.leaf .AND (mkW 1 2) (mkW 3 4) (mkW 13 14))
    (.node .AND
      (.leaf .OR (mkW 5 6) (mkW 7 8) (mkW 15 16))
      (.leaf .AND (mkW 9 10) (mkW 11 12) (mkW 17 18))
      (mkW 19 20))
    (mkW 21 22)

/-- The input assignment `A=1, B=0, C=1, D=1, E=1, F=1` (so the circuit's
plaintext value is `false`, because `A AND B` is false). -/
def c1Bits : List Bool := [true, false, true, true, true, true]

/-- The chosen input labels the garbler transfers, one per input wire in
`get_input_wires` order (post-order of the leaves). -/
def c1Labels : List LabelD :=
  [(mkW 1 2).get_label true, (mkW 3 4).get_label false,
   (mkW 5 6).get_label true, (mkW 7 8).get_label true,
   (mkW 9 10).get_label true, (mkW 11 12).get_label true]

/-- The value `classical_garble` stores for the label pair `(x, y)`. -/
def classical_entry_val (P : Prims) (gt : GType) (lw rw ow : WireD)
    (x y : Bool) : List Nat :=
  P.fernetEnc (P.b64 (lw.get_label x).bytes)
    (P.fernetEnc (P.b64 (rw.get_label y).bytes)
      (P.serLabel (ow.get_label (evaluate_gate gt x y))))

section ByteLemmas

theorem fromBytesBE_nil : fromBytesBE [] = 0 := rfl

theorem fromBytesBE_concat (l : List Nat) (b : Nat) :
    fromBytesBE (l ++ [b]) = fromBytesBE l * 256 + b := by
  simp [fromBytesBE, List.foldl_append]

theorem toBytesBE_length (n v : Nat) : (toBytesBE n v).length = n := by
  induction n generalizing v with
  | zero => rfl
  | succ m ih => simp [toBytesBE, ih]

theorem toBytesBE_bytes_lt (n v : Nat) : ∀ b ∈ toBytesBE n v, b < 256 := by
  induction n generalizing v with
  | zero => simp [toBytesBE]
  | succ m ih =>
    intro b hb
    simp only [toBytesBE, List.mem_append, List.mem_singleton] at hb
    rcases hb with h | h
    · exact ih _ b h
    · omega

theorem fromBytesBE_toBytesBE (n v : Nat) :
    fromBytesBE (toBytesBE n v) = v % 256 ^ n := by
  induction n generalizing v with
  | zero => simp [toBytesBE, fromBytesBE, Nat.mod_one]
  | succ m ih =>
    rw [toBytesBE, fromBytesBE_concat, ih]
    have h1 : (256 : Nat) ^ (m + 1) = 256 * 256 ^ m := by ring
    rw [h1, Nat.mod_mul]
    ring

theorem fromBytesBE_toBytesBE_of_lt {n v : Nat} (h : v < 256 ^ n) :
    fromBytesBE (toBytesBE n v) = v := by
  rw [fromBytesBE_toBytesBE, Nat.mod_eq_of_lt h]

theorem fromBytesBE_lt (l : List Nat) (h : ∀ b ∈ l, b < 256) :
    fromBytesBE l < 256 ^ l.length := by
  induction l using List.reverseRecOn with
  | nil => simp [fromBytesBE]
  | append_singleton L b ih =>
    rw [fromBytesBE_concat]
    have hb : b < 256 := h b (by simp)
    have hL : fromBytesBE L < 256 ^ L.length := ih fun x hx => h x (by simp [hx])
    calc fromBytesBE L * 256 + b < (fromBytesBE L + 1) * 256 := by omega
    _ ≤ 256 ^ L.length * 256 := Nat.mul_le_mul_right 256 hL
    _ = 256 ^ (L ++ [b]).length := by simp [Nat.pow_succ]

theorem toBytesBE_fromBytesBE (l : List Nat) (h : ∀ b ∈ l, b < 256) :
    toBytesBE l.length (fromBytesBE l) = l := by
  induction l using List.reverseRecOn with
  | nil => rfl
  | append_singleton L b ih =>
    have hb : b < 256 := h b (by simp)
    have hL : ∀ x ∈ L, x < 256 := fun x hx => h x (by simp [hx])
    have hlen : (L ++ [b]).length = L.length + 1 := by simp
    rw [hlen, fromBytesBE_concat, toBytesBE]
    have hdiv : (fromBytesBE L * 256 + b) / 256 = fromBytesBE L := by omega
    have hmod : (fromBytesBE L * 256 + b) % 256 = b := by omega
    rw [hdiv, hmod, ih hL]

theorem get_last_bit_concat (l : List Nat) (b : Nat) :
    get_last_bit (l ++ [b]) = get_last_bit [b] := by
  simp [get_last_bit, List.getLastD_concat]

theorem getLastD_single (b d : Nat) : [b].getLastD d = b := rfl

theorem beq_one_eq_decide (x : Nat) : (x == 1) = decide (x = 1) := by
  by_cases h : x = 1 <;> simp [h]

theorem get_last_bit_eq_decide (l : List Nat) :
    get_last_bit l = decide (l.getLastD 0 / 128 % 2 = 1) := by
  unfold get_last_bit
  rw [Nat.shiftRight_eq_div_pow, Nat.and_one_is_mod]
  have h7 : (2 : Nat) ^ 7 = 128 := by norm_num
  rw [h7, beq_one_eq_decide]

theorem testBit7_eq_decide (v : Nat) : v.testBit 7 = decide (v / 128 % 2 = 1) := by
  rw [Nat.testBit_to_div_mod]

theorem get_last_bit_toBytesBE (m v : Nat) :
    get_last_bit (toBytesBE (m + 1) v) = v.testBit 7 := by
  rw [toBytesBE, get_last_bit_concat, get_last_bit_eq_decide, testBit7_eq_decide,
    getLastD_single]
  have h2 : v % 256 / 128 % 2 = v / 128 % 2 := by omega
  rw [h2]

theorem testBit7_fromBytesBE (l : List Nat) (hne : l ≠ [])
    (h : ∀ b ∈ l, b < 256) : (fromBytesBE l).testBit 7 = get_last_bit l := by
  induction l using List.reverseRecOn with
  | nil => exact absurd rfl hne
  | append_singleton L b _ =>
    have hb : b < 256 := h b (by simp)
    rw [fromBytesBE_concat, get_last_bit_concat, get_last_bit_eq_decide,
      testBit7_eq_decide, getLastD_single]
    have h2 : (fromBytesBE L * 256 + b) / 128 % 2 = b / 128 % 2 := by omega
    rw [h2]

/-- The last bit of `utils.xor` is the xor of the last bits. -/
theorem get_last_bit_xorBytes (a b : List Nat) (ha : a ≠ []) (hb : b ≠ [])
    (hva : ∀ x ∈ a, x < 256) (hvb : ∀ x ∈ b, x < 256) :
    get_last_bit (xorBytes a b) = Bool.xor (get_last_bit a) (get_last_bit b) := by
  have h32 : NUM_BYTES = 31 + 1 := rfl
  rw [xorBytes, h32, get_last_bit_toBytesBE, Nat.testBit_xor,
    testBit7_fromBytesBE a ha hva, testBit7_fromBytesBE b hb hvb]

end ByteLemmas

section ClaimC7

/-- The padding round trip holds for non-empty messages that fit the 4-byte
length field. -/
theorem unpad_pad (m : List Nat) (hne : m ≠ []) (hlen : m.length < 2 ^ 32) :
    unpad (pad m 16) = m := by
  have h4 : (toBytesBE 4 m.length).length = 4 := toBytesBE_length 4 m.length
  have hfrom : fromBytesBE (toBytesBE 4 m.length) = m.length := by
    apply fromBytesBE_toBytesBE_of_lt
    have : (256 : Nat) ^ 4 = 2 ^ 32 := by norm_num
    omega
  unfold pad unpad
  simp only [List.append_assoc]
  rw [List.take_left' h4, List.drop_left' h4, hfrom]
  have hne' : m.length ≠ 0 := by
    intro h0
    exact hne (List.eq_nil_of_length_eq_zero h0)
  rw [if_pos hne', List.take_left' rfl]

/-- C7.  The claim "for every byte string `m`, `decrypt(encrypt(m)) = m`
and `unpad(pad(m)) = m`" fails at the empty byte string: `pad` turns `b''`
into a 16-byte zero block whose length field reads zero, so `unpad`
returns the whole padded block, not `b''`. -/
theorem c7_pad_roundtrip_counterexample :
    unpad (pad [] 16) ≠ ([] : List Nat) := by decide

/-- C7 (amended).  For every non-empty byte string `m` whose length fits
the 4-byte length field, the padded-mode round trip holds:
`AESKey.decrypt(AESKey.encrypt(m)) = m` (for a block cipher whose
decryption inverts its encryption, as AES-ECB does) and
`unpad(pad(m)) = m`. -/
theorem c7_crypto_roundtrip (P : Prims) (key m : List Nat)
    (hinv : ∀ x, P.aesRawInv (P.sha key) (P.aesRaw (P.sha key) x) = x)
    (hne : m ≠ []) (hlen : m.length < 2 ^ 32) :
    AESKey.decrypt P key (AESKey.encrypt P key m false true) false true = m ∧
    unpad (pad m 16) = m := by
  constructor
  · unfold AESKey.encrypt AESKey.decrypt
    simp only [if_true, if_false, Bool.false_eq_true, if_neg, reduceIte]
    rw [hinv, unpad_pad m hne hlen]
  · exact unpad_pad m hne hlen

/-- Witness for the amended C7 at a concrete input (`m = [7]`, identity
cipher). -/
theorem c7_crypto_roundtrip_witness :
    AESKey.decrypt idPrims [1] (AESKey.encrypt idPrims [1] [7] false true)
      false true = [7] ∧ unpad (pad [7] 16) = [7] :=
  c7_crypto_roundtrip idPrims [1] [7] (fun _ => rfl) (by decide) (by norm_num)

end ClaimC7

section Invariants

theorem sample_R_last_bit (rand : Nat → List Nat)
    (h : ∃ n, get_last_bit (rand n) = true) :
    get_last_bit (sample_R rand h) = true :=
  Nat.find_spec h

theorem xorBytes_ne_nil (a b : List Nat) : xorBytes a b ≠ [] := by
  intro h
  have hl := toBytesBE_length NUM_BYTES (fromBytesBE a ^^^ fromBytesBE b)
  rw [xorBytes] at h
  rw [h] at hl
  simp [NUM_BYTES] at hl

theorem xorBytes_bytes_lt (a b : List Nat) : ∀ x ∈ xorBytes a b, x < 256 :=
  toBytesBE_bytes_lt _ _

/-- Xoring the odd-last-bit offset `R` flips the last bit. -/
theorem get_last_bit_xor_R (x R : List Nat) (hx : x ≠ [])
    (hxv : ∀ v ∈ x, v < 256) (hRne : R ≠ []) (hRv : ∀ v ∈ R, v < 256)
    (hRbit : get_last_bit R = true) :
    get_last_bit (xorBytes x R) = ! get_last_bit x := by
  rw [get_last_bit_xorBytes x R hx hRne hxv hRv, hRbit]
  cases get_last_bit x <;> rfl

end Invariants

section ClaimC4

theorem offsetInv_free_xor_garble (S : Settings) (P : Prims) (R : List Nat)
    (hR : S.R = some R) (hg : S.GRR3 = false)
    (gt : GType) (lw rw ow : WireD) (tbl : Table) (res : GRes)
    (h : free_xor_garble S P gt lw rw ow tbl = some res)
    (hl : OffsetInv R lw) (hr : OffsetInv R rw) (ho : OffsetInv R ow) :
    OffsetInv R res.left ∧ OffsetInv R res.right ∧ OffsetInv R res.out := by
  unfold free_xor_garble at h
  by_cases hgt : gt = GType.XOR
  · rw [if_pos hgt, hR] at h
    simp only [Option.bind_eq_bind, Option.some_bind, Option.pure_def,
      Option.some_inj] at h
    subst h
    exact ⟨hl, hr, rfl⟩
  · rw [if_neg hgt, hg, if_neg (by simp)] at h
    simp only [Option.bind_eq_bind, Option.pure_def] at h
    obtain ⟨t, ht, h2⟩ := Option.bind_eq_some.mp h
    cases h2
    exact ⟨hl, hr, ho⟩

theorem offsetInv_half_gates_garble (S : Settings) (P : Prims) (R : List Nat)
    (hR : S.R = some R) (hg : S.GRR3 = false)
    (gt : GType) (lw rw ow : WireD) (tbl : Table) (res : GRes)
    (h : half_gates_garble S P gt lw rw ow tbl = some res)
    (hl : OffsetInv R lw) (hr : OffsetInv R rw) (ho : OffsetInv R ow) :
    OffsetInv R res.left ∧ OffsetInv R res.right ∧ OffsetInv R res.out := by
  unfold half_gates_garble at h
  by_cases hgt : gt = GType.AND
  · rw [if_pos hgt] at h
    simp only [Option.bind_eq_bind, Option.pure_def] at h
    obtain ⟨pa, hpa, h2⟩ := Option.bind_eq_some.mp h
    obtain ⟨pb, hpb, h3⟩ := Option.bind_eq_some.mp h2
    obtain ⟨R', hR', h4⟩ := Option.bind_eq_some.mp h3
    rw [hR] at hR'
    cases hR'
    simp only [Option.some_inj] at h4
    subst h4
    refine ⟨hl, hr, ?_⟩
    simp [OffsetInv, update_output_wire]
  · rw [if_neg hgt] at h
    exact offsetInv_free_xor_garble S P R hR hg gt lw rw ow tbl res h hl hr ho

/-- Wire creation under FreeXOR / half-gates establishes the offset
invariant. -/
theorem offsetInv_mkWire (S : Settings) (R : List Nat) (hR : S.R = some R)
    (hfx : S.FREE_XOR = true ∨ S.HALF_GATES = true)
    (fb tb : List Nat) (b : Bool) (w : WireD)
    (h : mkWire S fb tb b = some w) : OffsetInv R w := by
  unfold mkWire at h
  have hcond : (S.FREE_XOR || S.HALF_GATES) = true := by
    rcases hfx with h1 | h1 <;> simp [h1]
  rw [if_pos hcond, hR] at h
  by_cases hc : S.CLASSICAL = true <;>
    simp only [hc, if_pos, if_neg, Bool.true_eq_false, Bool.false_eq_true,
      reduceIte, Option.some_inj] at h <;>
    (subst h; rfl)

/-- C4.  When FreeXOR or half-gates is active: the sampled global offset
`R` has last bit 1; wire creation satisfies
`true_label.bytes = false_label.bytes ⊕ R`; and garbling any gate
(`Gate.garble` dispatch) preserves that invariant on all three wires. -/
theorem c4_freexor_offset_invariant (rand : Nat → List Nat)
    (hex : ∃ n, get_last_bit (rand n) = true)
    (S : Settings) (P : Prims) (shuf : List (List Nat) → List (List Nat))
    (rs : Nat → List Nat) (fuel : Nat)
    (hS : S = freeXorS (sample_R rand hex) ∨ S = halfGatesS (sample_R rand hex)) :
    get_last_bit (sample_R rand hex) = true ∧
    (∀ fb tb b w, mkWire S fb tb b = some w →
      OffsetInv (sample_R rand hex) w) ∧
    (∀ gt lw rw ow res,
      OffsetInv (sample_R rand hex) lw → OffsetInv (sample_R rand hex) rw →
      OffsetInv (sample_R rand hex) ow →
      gate_garble S P shuf rs fuel gt lw rw ow = some res →
      OffsetInv (sample_R rand hex) res.left ∧
      OffsetInv (sample_R rand hex) res.right ∧
      OffsetInv (sample_R rand hex) res.out) := by
  set R := sample_R rand hex with hRdef
  have hR : S.R = some R := by rcases hS with h | h <;> subst h <;> rfl
  have hg : S.GRR3 = false := by rcases hS with h | h <;> subst h <;> rfl
  refine ⟨sample_R_last_bit rand hex, ?_, ?_⟩
  · intro fb tb b w h
    refine offsetInv_mkWire S R hR ?_ fb tb b w h
    rcases hS with h1 | h1 <;> subst h1 <;> simp [freeXorS, halfGatesS]
  · intro gt lw rw ow res hl hr ho h
    rcases hS with h1 | h1 <;> subst h1
    · exact offsetInv_free_xor_garble _ P R hR hg gt lw rw ow [] res h hl hr ho
    · exact offsetInv_half_gates_garble _ P R hR hg gt lw rw ow [] res h hl hr ho

/-- Witness for C4 at a concrete input. -/
theorem c4_freexor_offset_invariant_witness :
    get_last_bit (sample_R (fun _ => List.replicate 32 255)
      ⟨0, by decide⟩) = true := by
  have h := c4_freexor_offset_invariant (fun _ => List.replicate 32 255)
    ⟨0, by decide⟩ (freeXorS (sample_R (fun _ => List.replicate 32 255)
      ⟨0, by decide⟩)) idPrims id (fun _ => []) 0 (Or.inl rfl)
  exact h.1

end ClaimC4

section ClaimC5

/-- Wire creation in any non-classical mode assigns opposing pp-bits. -/
theorem ppOpp_mkWire (S : Settings) (hc : S.CLASSICAL = false)
    (fb tb : List Nat) (b : Bool) (w : WireD)
    (h : mkWire S fb tb b = some w) : PpOpp w := by
  unfold mkWire at h
  rw [hc] at h
  simp only [Bool.false_eq_true, if_false, reduceIte] at h
  by_cases hfx : (S.FREE_XOR || S.HALF_GATES) = true
  · rw [if_pos hfx] at h
    cases hRv : S.R with
    | none => rw [hRv] at h; cases h
    | some R =>
        rw [hRv] at h
        simp only [Option.some_inj] at h
        subst h
        exact ⟨b, rfl, rfl⟩
  · rw [if_neg hfx] at h
    simp only [Option.some_inj] at h
    subst h
    exact ⟨b, rfl, rfl⟩

theorem ppOpp_set_zero_ciphertext (P : Prims) (gt : GType) (lw rw ow : WireD)
    (ow' : WireD) (h : set_zero_ciphertext P gt lw rw ow = some ow') :
    PpOpp ow' := by
  unfold set_zero_ciphertext at h
  simp only [Option.bind_eq_bind, Option.pure_def] at h
  obtain ⟨i1, hi1, h2⟩ := Option.bind_eq_some.mp h
  obtain ⟨i2, hi2, h3⟩ := Option.bind_eq_some.mp h2
  by_cases hv : evaluate_gate gt i1 i2 = true
  · rw [if_pos hv] at h3
    simp only [Option.some_inj] at h3
    subst h3
    exact ⟨_, rfl, by simp⟩
  · rw [if_neg hv] at h3
    simp only [Option.some_inj] at h3
    subst h3
    exact ⟨_, rfl, rfl⟩

theorem ppOpp_grr3_garble (P : Prims) (gt : GType) (lw rw ow : WireD)
    (res : GRes) (h : grr3_garble P gt lw rw ow = some res)
    (hl : PpOpp lw) (hr : PpOpp rw) :
    PpOpp res.left ∧ PpOpp res.right ∧ PpOpp res.out := by
  unfold grr3_garble at h
  simp only [Option.bind_eq_bind, Option.pure_def] at h
  obtain ⟨ow', how, h2⟩ := Option.bind_eq_some.mp h
  obtain ⟨t1, ht1, h3⟩ := Option.bind_eq_some.mp h2
  obtain ⟨t2, ht2, h4⟩ := Option.bind_eq_some.mp h3
  obtain ⟨t3, ht3, h5⟩ := Option.bind_eq_some.mp h4
  obtain ⟨t4, ht4, h6⟩ := Option.bind_eq_some.mp h5
  simp only [Option.some_inj] at h6
  subst h6
  exact ⟨hl, hr, ppOpp_set_zero_ciphertext P gt lw rw ow ow' how⟩

theorem ppOpp_free_xor_garble (S : Settings) (P : Prims)
    (hg : S.GRR3 = false)
    (gt : GType) (lw rw ow : WireD) (tbl : Table) (res : GRes)
    (h : free_xor_garble S P gt lw rw ow tbl = some res)
    (hl : PpOpp lw) (hr : PpOpp rw) (ho : PpOpp ow) :
    PpOpp res.left ∧ PpOpp res.right ∧ PpOpp res.out := by
  unfold free_xor_garble at h
  by_cases hgt : gt = GType.XOR
  · rw [if_pos hgt] at h
    cases hRv : S.R with
    | none => rw [hRv] at h; cases h
    | some R =>
        rw [hRv] at h
        simp only [Option.bind_eq_bind, Option.some_bind, Option.pure_def,
          Option.some_inj] at h
        subst h
        exact ⟨hl, hr, _, rfl, rfl⟩
  · rw [if_neg hgt, hg, if_neg (by simp)] at h
    simp only [Option.bind_eq_bind, Option.pure_def] at h
    obtain ⟨t, ht, h2⟩ := Option.bind_eq_some.mp h
    cases h2
    exact ⟨hl, hr, ho⟩

theorem ppOpp_modify_fst (lw rw ow : WireD) (a b c : List Nat) :
    PpOpp (modify_pp_bits lw rw ow a b c).1 := ⟨_, rfl, rfl⟩

theorem ppOpp_modify_snd (lw rw ow : WireD) (a b c : List Nat) :
    PpOpp (modify_pp_bits lw rw ow a b c).2.1 := ⟨_, rfl, rfl⟩

theorem ppOpp_modify_out (lw rw ow : WireD) (a b c : List Nat) :
    PpOpp (modify_pp_bits lw rw ow a b c).2.2 := ⟨_, rfl, rfl⟩

theorem free_xor_garble_xor_no_R (S : Settings) (P : Prims) (hR : S.R = none)
    (lw rw ow : WireD) (tbl : Table) :
    free_xor_garble S P GType.XOR lw rw ow tbl = none := by
  unfold free_xor_garble
  rw [if_pos rfl, hR]
  rfl

theorem ppOpp_update_output_wire_offset (ow : WireD) (X R : List Nat)
    (hXne : X ≠ []) (hXv : ∀ v ∈ X, v < 256) (hRne : R ≠ [])
    (hRv : ∀ v ∈ R, v < 256) (hRbit : get_last_bit R = true) :
    PpOpp (update_output_wire ow X (xorBytes X R)) := by
  refine ⟨get_last_bit X, rfl, ?_⟩
  simp only [update_output_wire]
  rw [get_last_bit_xor_R X R hXne hXv hRne hRv hRbit]

theorem ppOpp_flexor_garble (P : Prims) (rand : Nat → List Nat) (fuel : Nat)
    (gt : GType) (lw rw ow : WireD) (res : GRes)
    (h : flexor_garble flexorS P rand fuel gt lw rw ow = some res)
    (hl : PpOpp lw) (hr : PpOpp rw) (ho : PpOpp ow) :
    PpOpp res.left ∧ PpOpp res.right ∧ PpOpp res.out := by
  unfold flexor_garble at h
  by_cases hgt : gt = GType.XOR
  · rw [if_pos hgt] at h
    simp only [Option.bind_eq_bind, Option.pure_def] at h
    obtain ⟨out, hout, h2⟩ := Option.bind_eq_some.mp h
    generalize hA : AESKey.decrypt P lw.false_label.bytes zeroBlock false true = A0t at h2
    generalize hB : AESKey.decrypt P rw.false_label.bytes zeroBlock false true = B0t at h2
    generalize hR1 : xorBytes lw.false_label.bytes lw.true_label.bytes = R1 at h2
    generalize hR2 : xorBytes rw.false_label.bytes rw.true_label.bytes = R2 at h2
    generalize hR3 : xorBytes out.false_label.bytes out.true_label.bytes = R3 at h2
    split at h2
    · -- R1 = R2 ∧ R2 = R3: falls to free_xor_garble with settings.R unset
      rw [free_xor_garble_xor_no_R flexorS P rfl] at h2
      cases h2
    · split at h2
      · -- both entries
        obtain ⟨pl, hpl, h3⟩ := Option.bind_eq_some.mp h2
        obtain ⟨pr, hpr, h4⟩ := Option.bind_eq_some.mp h3
        simp only [Option.some_inj] at h4
        subst h4
        exact ⟨⟨_, rfl, rfl⟩, ⟨_, rfl, rfl⟩, ⟨_, rfl, rfl⟩⟩
      · split at h2
        · -- R1 = R3
          obtain ⟨pr, hpr, h4⟩ := Option.bind_eq_some.mp h2
          simp only [Option.some_inj] at h4
          subst h4
          exact ⟨⟨_, rfl, rfl⟩, ⟨_, rfl, rfl⟩, ⟨_, rfl, rfl⟩⟩
        · split at h2
          · -- R2 = R3
            obtain ⟨pl, hpl, h4⟩ := Option.bind_eq_some.mp h2
            simp only [Option.some_inj] at h4
            subst h4
            exact ⟨⟨_, rfl, rfl⟩, ⟨_, rfl, rfl⟩, ⟨_, rfl, rfl⟩⟩
          · -- no entries
            simp only [Option.some_inj] at h2
            subst h2
            exact ⟨⟨_, rfl, rfl⟩, ⟨_, rfl, rfl⟩, ⟨_, rfl, rfl⟩⟩
  · rw [if_neg hgt] at h
    simp only [flexorS, Bool.false_eq_true, if_false, reduceIte,
      Option.bind_eq_bind, Option.pure_def] at h
    obtain ⟨t, ht, h2⟩ := Option.bind_eq_some.mp h
    cases h2
    exact ⟨hl, hr, ho⟩

theorem ppOpp_half_gates_garble (P : Prims) (R : List Nat)
    (hRne : R ≠ []) (hRv : ∀ v ∈ R, v < 256) (hRbit : get_last_bit R = true)
    (gt : GType) (lw rw ow : WireD) (tbl : Table) (res : GRes)
    (h : half_gates_garble (halfGatesS R) P gt lw rw ow tbl = some res)
    (hl : PpOpp lw) (hr : PpOpp rw) (ho : PpOpp ow) :
    PpOpp res.left ∧ PpOpp res.right ∧ PpOpp res.out := by
  unfold half_gates_garble at h
  by_cases hgt : gt = GType.AND
  · rw [if_pos hgt] at h
    simp only [Option.bind_eq_bind, Option.pure_def] at h
    obtain ⟨pa, hpa, h2⟩ := Option.bind_eq_some.mp h
    obtain ⟨pb, hpb, h3⟩ := Option.bind_eq_some.mp h2
    obtain ⟨R', hR', h4⟩ := Option.bind_eq_some.mp h3
    have hRR : R = R' := by
      simpa [halfGatesS] using hR'
    subst hRR
    simp only [Option.some_inj] at h4
    subst h4
    exact ⟨hl, hr, ppOpp_update_output_wire_offset ow _ R
      (xorBytes_ne_nil _ _) (xorBytes_bytes_lt _ _) hRne hRv hRbit⟩
  · rw [if_neg hgt] at h
    exact ppOpp_free_xor_garble (halfGatesS R) P rfl gt lw rw ow tbl res h hl hr ho

/-- C5.  In every optimization except classical: wire creation gives the
two labels opposing pp-bits, and garbling a gate (`Gate.garble` dispatch)
preserves opposing pp-bits on all three wires.  For half-gates the global
offset `R` must be a byte string with last bit 1, as `Circuit.__init__`
samples it. -/
theorem c5_pp_bit_invariant (S : Settings) (P : Prims)
    (shuf : List (List Nat) → List (List Nat)) (rs : Nat → List Nat)
    (fuel : Nat) (R : List Nat)
    (hRne : R ≠ []) (hRv : ∀ v ∈ R, v < 256) (hRbit : get_last_bit R = true)
    (hS : S = papS ∨ S = grr3S ∨ S = freeXorS R ∨ S = flexorS ∨
      S = halfGatesS R) :
    (∀ fb tb b w, mkWire S fb tb b = some w → PpOpp w) ∧
    (∀ gt lw rw ow res,
      PpOpp lw → PpOpp rw → PpOpp ow →
      gate_garble S P shuf rs fuel gt lw rw ow = some res →
      PpOpp res.left ∧ PpOpp res.right ∧ PpOpp res.out) := by
  have hc : S.CLASSICAL = false := by
    rcases hS with h | h | h | h | h <;> subst h <;> rfl
  refine ⟨fun fb tb b w h => ppOpp_mkWire S hc fb tb b w h, ?_⟩
  intro gt lw rw ow res hl hr ho h
  rcases hS with h1 | h1 | h1 | h1 | h1 <;> subst h1
  · -- point-and-permute: wires unchanged
    simp only [gate_garble, papS, Bool.false_eq_true, if_false, if_true,
      reduceIte, Option.bind_eq_bind, Option.pure_def] at h
    obtain ⟨t, ht, h2⟩ := Option.bind_eq_some.mp h
    cases h2
    exact ⟨hl, hr, ho⟩
  · -- GRR3
    exact ppOpp_grr3_garble P gt lw rw ow res h hl hr
  · -- FreeXOR
    exact ppOpp_free_xor_garble (freeXorS R) P rfl gt lw rw ow [] res h hl hr ho
  · -- FleXOR
    exact ppOpp_flexor_garble P rs fuel gt lw rw ow res h hl hr ho
  · -- half-gates
    exact ppOpp_half_gates_garble P R hRne hRv hRbit gt lw rw ow [] res h hl hr ho

/-- Witness for C5 at a concrete input: point-and-permute wire creation. -/
theorem c5_pp_bit_invariant_witness :
    PpOpp ⟨⟨List.replicate 32 3, some false, some true⟩,
           ⟨List.replicate 32 5, some true, some false⟩⟩ :=
  (c5_pp_bit_invariant papS idPrims id (fun _ => []) 0
    (List.replicate 32 255) (by decide) (by decide) (by decide)
    (Or.inl rfl)).1 (List.replicate 32 3) (List.replicate 32 5) true _ rfl

end ClaimC5

section ClaimC6

/-- C6.  For a GRR3-garbled gate, with `L0`, `R0` the input labels whose
pp-bit is 0: the bytes `set_zero_ciphertext` assigns to the chosen output
label are `generate_zero_ciphertext L0 R0`, which is exactly what
`grr3_ungarble` computes when both received labels have pp-bit 0; and
re-encrypting that value pad-free under the same two keys recovers the
all-zeros block (for a block cipher whose encryption inverts its
decryption, as AES-ECB does). -/
theorem c6_grr3_zero_ciphertext_law (P : Prims)
    (hinv : ∀ key x, P.aesRaw key (P.aesRawInv key x) = x)
    (gt : GType) (lw rw ow ow' : WireD) (L0 R0 : LabelD)
    (hL0 : L0 = (if optTrue lw.false_label.pp_bit then lw.true_label
      else lw.false_label))
    (hR0 : R0 = (if optTrue rw.false_label.pp_bit then rw.true_label
      else rw.false_label))
    (hppL : L0.pp_bit = some false) (hppR : R0.pp_bit = some false)
    (i1 i2 : Bool) (hi1 : L0.represents = some i1) (hi2 : R0.represents = some i2)
    (h : set_zero_ciphertext P gt lw rw ow = some ow') :
    (if evaluate_gate gt i1 i2 then ow'.true_label.bytes
      else ow'.false_label.bytes) = generate_zero_ciphertext P L0 R0 ∧
    (∀ tbl, grr3_ungarble P L0 R0 tbl =
      some ⟨generate_zero_ciphertext P L0 R0, none,
        some (get_last_bit (generate_zero_ciphertext P L0 R0))⟩) ∧
    AESKey.encrypt P (P.b64 L0.bytes)
      (AESKey.encrypt P (P.b64 R0.bytes) (generate_zero_ciphertext P L0 R0)
        false false) false false = zeroBlock := by
  subst hL0
  subst hR0
  refine ⟨?_, ?_, ?_⟩
  · unfold set_zero_ciphertext at h
    dsimp only [] at h
    rw [hi1, hi2] at h
    simp only [Option.bind_eq_bind, Option.some_bind, Option.pure_def] at h
    by_cases hv : evaluate_gate gt i1 i2 = true
    · rw [if_pos hv] at h
      simp only [Option.some_inj] at h
      subst h
      rw [if_pos hv]
    · rw [if_neg hv] at h
      simp only [Option.some_inj] at h
      subst h
      rw [if_neg hv]
  · intro tbl
    unfold grr3_ungarble
    rw [hppL, hppR]
    rfl
  · unfold generate_zero_ciphertext AESKey.encrypt AESKey.decrypt
    dsimp only []
    simp only [Bool.false_eq_true, if_false, reduceIte]
    rw [hinv, hinv]

/-- Witness for C6 at a concrete input (identity cipher, concrete wires). -/
theorem c6_grr3_zero_ciphertext_law_witness :
    grr3_ungarble idPrims ⟨List.replicate 32 1, some false, some false⟩
      ⟨List.replicate 32 2, some true, some false⟩ [] =
      some ⟨generate_zero_ciphertext idPrims
          ⟨List.replicate 32 1, some false, some false⟩
          ⟨List.replicate 32 2, some true, some false⟩, none,
        some (get_last_bit (generate_zero_ciphertext idPrims
          ⟨List.replicate 32 1, some false, some false⟩
          ⟨List.replicate 32 2, some true, some false⟩))⟩ :=
  (c6_grr3_zero_ciphertext_law idPrims (fun _ _ => rfl) GType.AND
    ⟨⟨List.replicate 32 1, some false, some false⟩,
     ⟨List.replicate 32 3, some true, some true⟩⟩
    ⟨⟨List.replicate 32 4, some false, some true⟩,
     ⟨List.replicate 32 2, some true, some false⟩⟩
    ⟨⟨List.replicate 32 7, some false, some true⟩,
     ⟨List.replicate 32 8, some true, some false⟩⟩
    ⟨⟨zeroBlock, some false, some false⟩,
     ⟨List.replicate 32 8, some true, some true⟩⟩
    ⟨List.replicate 32 1, some false, some false⟩
    ⟨List.replicate 32 2, some true, some false⟩
    (by decide) (by decide) (by decide) (by decide)
    false true (by decide) (by decide) (by decide)).2.1 []

end ClaimC6

section ClaimC910

theorem classical_foldl_none_iff (P : Prims) (g e : LabelD) :
    ∀ (tbl : Table) (acc : Option LabelD),
      tbl.foldl (classical_step P g e) acc = none ↔
        (acc = none ∧ ∀ ct, some ct ∈ tbl → classical_try P g e ct = none) := by
  intro tbl
  induction tbl with
  | nil => intro acc; simp
  | cons c cs ih =>
      intro acc
      rw [List.foldl_cons]
      cases c with
      | none =>
          rw [show classical_step P g e acc none = acc from rfl, ih]
          simp
      | some ct =>
          cases htry : classical_try P g e ct with
          | some l =>
              rw [show classical_step P g e acc (some ct) = some l by
                simp [classical_step, htry], ih]
              constructor
              · rintro ⟨h1, _⟩; cases h1
              · rintro ⟨_, h2⟩
                have := h2 ct (by simp)
                rw [htry] at this
                cases this
          | none =>
              rw [show classical_step P g e acc (some ct) = acc by
                simp [classical_step, htry], ih]
              constructor
              · rintro ⟨h1, h2⟩
                refine ⟨h1, fun ct' hct' => ?_⟩
                rcases List.mem_cons.mp hct' with h | h
                · cases h; exact htry
                · exact h2 ct' h
              · rintro ⟨h1, h2⟩
                exact ⟨h1, fun ct' hct' => h2 ct' (List.mem_cons_of_mem _ hct')⟩

theorem classical_foldl_success (P : Prims) (g e : LabelD) (L : LabelD) :
    ∀ (tbl : Table) (acc : Option LabelD),
      (∀ ct, some ct ∈ tbl →
        classical_try P g e ct = none ∨ classical_try P g e ct = some L) →
      ((∃ ct, some ct ∈ tbl ∧ classical_try P g e ct = some L) ∨ acc = some L) →
      tbl.foldl (classical_step P g e) acc = some L := by
  intro tbl
  induction tbl with
  | nil =>
      intro acc _ hex
      rcases hex with ⟨ct, hct, _⟩ | hacc
      · simp at hct
      · simpa using hacc
  | cons c cs ih =>
      intro acc hall hex
      rw [List.foldl_cons]
      cases c with
      | none =>
          rw [show classical_step P g e acc none = acc from rfl]
          apply ih acc (fun ct hct => hall ct (List.mem_cons_of_mem _ hct))
          rcases hex with ⟨ct, hct, htry⟩ | hacc
          · rcases List.mem_cons.mp hct with h | h
            · cases h
            · exact Or.inl ⟨ct, h, htry⟩
          · exact Or.inr hacc
      | some ct =>
          cases htry : classical_try P g e ct with
          | some l =>
              have hl : l = L := by
                rcases hall ct (by simp) with h | h
                · rw [htry] at h; cases h
                · rw [htry] at h; exact Option.some_inj.mp h
              subst hl
              rw [show classical_step P g e acc (some ct) = some l by
                simp [classical_step, htry]]
              exact ih _ (fun ct' hct' => hall ct' (List.mem_cons_of_mem _ hct'))
                (Or.inr rfl)
          | none =>
              rw [show classical_step P g e acc (some ct) = acc by
                simp [classical_step, htry]]
              apply ih acc (fun ct' hct' => hall ct' (List.mem_cons_of_mem _ hct'))
              rcases hex with ⟨ct', hct', htry'⟩ | hacc
              · rcases List.mem_cons.mp hct' with h | h
                · cases h
                  rw [htry] at htry'
                  cases htry'
                · exact Or.inl ⟨ct', h, htry'⟩
              · exact Or.inr hacc

/-- C10.  `classical_ungarble` produces a label exactly when some table
entry decrypts under the two supplied labels; when no entry decrypts (for
example an empty table, or labels from a different gate) the loop never
assigns `output_label` and the final `return` raises `UnboundLocalError`
(`none` in the model). -/
theorem c10_classical_ungarble_none_iff (P : Prims) (g e : LabelD)
    (tbl : Table) :
    classical_ungarble P g e tbl = none ↔
      ∀ ct, some ct ∈ tbl → classical_try P g e ct = none := by
  rw [classical_ungarble, classical_foldl_none_iff]
  simp

theorem classical_entry_eq (P : Prims) (gt : GType) (lw rw ow : WireD)
    (x y : Bool)
    (hx : (lw.get_label x).represents = some x)
    (hy : (rw.get_label y).represents = some y) :
    classical_entry P gt ow (lw.get_label x) (rw.get_label y) =
      some (classical_entry_val P gt lw rw ow x y) := by
  unfold classical_entry classical_entry_val
  rw [hx, hy]
  rfl

theorem classical_garble_entries (P : Prims) (gt : GType) (lw rw ow : WireD)
    (hrepLf : lw.false_label.represents = some false)
    (hrepLt : lw.true_label.represents = some true)
    (hrepRf : rw.false_label.represents = some false)
    (hrepRt : rw.true_label.represents = some true) :
    classical_garble P gt lw rw ow = some
      [classical_entry_val P gt lw rw ow false false,
       classical_entry_val P gt lw rw ow false true,
       classical_entry_val P gt lw rw ow true false,
       classical_entry_val P gt lw rw ow true true] := by
  have h1 := classical_entry_eq P gt lw rw ow false false hrepLf hrepRf
  have h2 := classical_entry_eq P gt lw rw ow false true hrepLf hrepRt
  have h3 := classical_entry_eq P gt lw rw ow true false hrepLt hrepRf
  have h4 := classical_entry_eq P gt lw rw ow true true hrepLt hrepRt
  simp only [WireD.get_label, Bool.false_eq_true, if_false, if_true,
    reduceIte] at h1 h2 h3 h4
  unfold classical_garble
  rw [h1, h2, h3, h4]
  rfl

/-- C9.  `classical_ungarble`, applied with the two received labels to any
uniform shuffle (arbitrary permutation) of the classical table, swallows
the decryption failures of the three non-matching entries and returns the
output label recovered from the single successful entry, wherever that
entry sits.  The Fernet laws are assumed at the four keys in play: an
entry decrypts under the key it was built with and fails under the other
wire label's key. -/
theorem c9_classical_ungarble_finds_entry (P : Prims) (gt : GType)
    (lw rw ow : WireD) (a b : Bool)
    (hrepLf : lw.false_label.represents = some false)
    (hrepLt : lw.true_label.represents = some true)
    (hrepRf : rw.false_label.represents = some false)
    (hrepRt : rw.true_label.represents = some true)
    (hokL : ∀ m, P.fernetDec (P.b64 (lw.get_label a).bytes)
      (P.fernetEnc (P.b64 (lw.get_label a).bytes) m) = some m)
    (hokR : ∀ m, P.fernetDec (P.b64 (rw.get_label b).bytes)
      (P.fernetEnc (P.b64 (rw.get_label b).bytes) m) = some m)
    (hbadL : ∀ m, P.fernetDec (P.b64 (lw.get_label a).bytes)
      (P.fernetEnc (P.b64 (lw.get_label (!a)).bytes) m) = none)
    (hbadR : ∀ m, P.fernetDec (P.b64 (rw.get_label b).bytes)
      (P.fernetEnc (P.b64 (rw.get_label (!b)).bytes) m) = none)
    (hdeser : ∀ l, P.deserLabel (P.serLabel l) = some l)
    (tbl0 : List (List Nat))
    (hgarble : classical_garble P gt lw rw ow = some tbl0)
    (tbl : List (List Nat)) (hperm : tbl.Perm tbl0) :
    classical_ungarble P (lw.get_label a) (rw.get_label b) (tbl.map some) =
      some (ow.get_label (evaluate_gate gt a b)) := by
  rw [classical_garble_entries P gt lw rw ow hrepLf hrepLt hrepRf hrepRt]
    at hgarble
  rw [Option.some_inj] at hgarble
  subst hgarble
  have htry : ∀ x y : Bool,
      classical_try P (lw.get_label a) (rw.get_label b)
        (classical_entry_val P gt lw rw ow x y) =
      (if x = a ∧ y = b then some (ow.get_label (evaluate_gate gt a b))
       else none) := by
    intro x y
    unfold classical_try classical_entry_val
    by_cases hxa : x = a
    · subst hxa
      rw [hokL]
      simp only [Option.bind_eq_bind, Option.some_bind]
      by_cases hyb : y = b
      · subst hyb
        rw [hokR]
        simp only [Option.some_bind, hdeser]
        simp
      · have hy : y = !b := by
          cases y <;> cases b <;> simp_all
        rw [hy, hbadR]
        simp [hyb]
    · have hx : x = !a := by
        cases x <;> cases a <;> simp_all
      rw [hx, hbadL]
      simp [hxa]
  unfold classical_ungarble
  apply classical_foldl_success
  · intro ct hct
    have hct' : ct ∈ tbl := by
      rcases List.mem_map.mp hct with ⟨ct', hm, he⟩
      cases he
      exact hm
    have := hperm.mem_iff.mp hct'
    simp only [List.mem_cons, List.not_mem_nil, or_false] at this
    rcases this with h | h | h | h <;> subst h <;> rw [htry] <;> split <;> simp
  · left
    refine ⟨classical_entry_val P gt lw rw ow a b, ?_, ?_⟩
    · apply List.mem_map_of_mem
      apply hperm.mem_iff.mpr
      cases a <;> cases b <;> simp
    · rw [htry]
      simp

theorem idPrims_fernet_ok (k m : List Nat) :
    idPrims.fernetDec k (idPrims.fernetEnc k m) = some m := by
  show (if (k ++ m).take k.length = k then some ((k ++ m).drop k.length)
    else none) = some m
  rw [List.take_left, if_pos rfl, List.drop_left]

theorem idPrims_fernet_bad (k k' m : List Nat) (hlen : k.length = k'.length)
    (hne : k ≠ k') : idPrims.fernetDec k' (idPrims.fernetEnc k m) = none := by
  show (if (k ++ m).take k'.length = k' then some ((k ++ m).drop k'.length)
    else none) = none
  rw [if_neg]
  intro hcontra
  rw [← hlen, List.take_left] at hcontra
  exact hne hcontra

theorem decOB_encOB (x : Option Bool) : decOB (encOB x) = x := by
  rcases x with _ | b
  · rfl
  · cases b <;> rfl

theorem idPrims_deser_ser (l : LabelD) :
    idPrims.deserLabel (idPrims.serLabel l) = some l := by
  show deserLabelC (serLabelC l) = some l
  cases l with
  | mk bytes rep pp => simp [serLabelC, deserLabelC, decOB_encOB]

/-- Witness for C9: identity base64, the prefix-keyed authenticated
cipher, concrete classical wires, the reversed table. -/
theorem c9_classical_ungarble_finds_entry_witness :
    classical_ungarble idPrims
      ((⟨⟨List.replicate 32 1, some false, none⟩,
         ⟨List.replicate 32 2, some true, none⟩⟩ : WireD).get_label true)
      ((⟨⟨List.replicate 32 3, some false, none⟩,
         ⟨List.replicate 32 4, some true, none⟩⟩ : WireD).get_label false)
      ([classical_entry_val idPrims GType.OR
          ⟨⟨List.replicate 32 1, some false, none⟩,
           ⟨List.replicate 32 2, some true, none⟩⟩
          ⟨⟨List.replicate 32 3, some false, none⟩,
           ⟨List.replicate 32 4, some true, none⟩⟩
          ⟨⟨List.replicate 32 5, some false, none⟩,
           ⟨List.replicate 32 6, some true, none⟩⟩ false false,
        classical_entry_val idPrims GType.OR
          ⟨⟨List.replicate 32 1, some false, none⟩,
           ⟨List.replicate 32 2, some true, none⟩⟩
          ⟨⟨List.replicate 32 3, some false, none⟩,
           ⟨List.replicate 32 4, some true, none⟩⟩
          ⟨⟨List.replicate 32 5, some false, none⟩,
           ⟨List.replicate 32 6, some true, none⟩⟩ false true,
        classical_entry_val idPrims GType.OR
          ⟨⟨List.replicate 32 1, some false, none⟩,
           ⟨List.replicate 32 2, some true, none⟩⟩
          ⟨⟨List.replicate 32 3, some false, none⟩,
           ⟨List.replicate 32 4, some true, none⟩⟩
          ⟨⟨List.replicate 32 5, some false, none⟩,
           ⟨List.replicate 32 6, some true, none⟩⟩ true false,
        classical_entry_val idPrims GType.OR
          ⟨⟨List.replicate 32 1, some false, none⟩,
           ⟨List.replicate 32 2, some true, none⟩⟩
          ⟨⟨List.replicate 32 3, some false, none⟩,
           ⟨List.replicate 32 4, some true, none⟩⟩
          ⟨⟨List.replicate 32 5, some false, none⟩,
           ⟨List.replicate 32 6, some true, none⟩⟩ true true].reverse.map some) =
      some ((⟨⟨List.replicate 32 5, some false, none⟩,
              ⟨List.replicate 32 6, some true, none⟩⟩ : WireD).get_label
        (evaluate_gate GType.OR true false)) := by
  apply c9_classical_ungarble_finds_entry idPrims GType.OR
    ⟨⟨List.replicate 32 1, some false, none⟩,
     ⟨List.replicate 32 2, some true, none⟩⟩
    ⟨⟨List.replicate 32 3, some false, none⟩,
     ⟨List.replicate 32 4, some true, none⟩⟩
    ⟨⟨List.replicate 32 5, some false, none⟩,
     ⟨List.replicate 32 6, some true, none⟩⟩ true false
    rfl rfl rfl rfl
    (fun m => idPrims_fernet_ok _ m)
    (fun m => idPrims_fernet_ok _ m)
    (fun m => idPrims_fernet_bad _ _ m (by decide) (by decide))
    (fun m => idPrims_fernet_bad _ _ m (by decide) (by decide))
    idPrims_deser_ser _
    (classical_garble_entries idPrims GType.OR _ _ _ rfl rfl rfl rfl)
  exact List.reverse_perm _

end ClaimC910

section ClaimC8

theorem pow_mod_prime_of_dvd (r k L t : Nat) (hr : r.Prime)
    (hdvd : (r - 1) ∣ L) : k ^ (L * t + 1) ≡ k [MOD r] := by
  haveI := Fact.mk hr
  rw [← ZMod.natCast_eq_natCast_iff]
  push_cast
  by_cases hk : (k : ZMod r) = 0
  · rw [hk, zero_pow (by omega)]
  · obtain ⟨s, hs⟩ := hdvd
    rw [pow_succ, hs, show (r - 1) * s * t = (r - 1) * (s * t) from by ring,
      pow_mul, ZMod.pow_card_sub_one_eq_one hk, one_pow, one_mul]

theorem rsa_lcm_two_le (p q : Nat) (hp : p.Prime) (hq : q.Prime)
    (hpq : p ≠ q) : 2 ≤ Nat.lcm (p - 1) (q - 1) := by
  have hp2 := hp.two_le
  have hq2 := hq.two_le
  have hLpos : 0 < Nat.lcm (p - 1) (q - 1) :=
    Nat.lcm_pos (by omega) (by omega)
  by_cases hp3 : 3 ≤ p
  · have h1 : p - 1 ∣ Nat.lcm (p - 1) (q - 1) := Nat.dvd_lcm_left _ _
    have := Nat.le_of_dvd hLpos h1
    omega
  · have hq3 : 3 ≤ q := by
      have := hp.two_le
      interval_cases p <;> omega
    have h1 : q - 1 ∣ Nat.lcm (p - 1) (q - 1) := Nat.dvd_lcm_right _ _
    have := Nat.le_of_dvd hLpos h1
    omega

/-- The RSA correctness core: `k^(e·d) ≡ k (mod p·q)` for distinct primes
and `e·d ≡ 1 (mod λ(p·q))`. -/
theorem rsa_pow_ed (p q e d k : Nat) (hp : p.Prime) (hq : q.Prime)
    (hpq : p ≠ q) (hed : e * d ≡ 1 [MOD Nat.lcm (p - 1) (q - 1)]) :
    k ^ (e * d) ≡ k [MOD p * q] := by
  have hL2 := rsa_lcm_two_le p q hp hq hpq
  have hmod : (e * d) % Nat.lcm (p - 1) (q - 1) = 1 := by
    have h1 : (1 : Nat) % Nat.lcm (p - 1) (q - 1) = 1 :=
      Nat.mod_eq_of_lt (by omega)
    unfold Nat.ModEq at hed
    omega
  have hed' : e * d = Nat.lcm (p - 1) (q - 1) * (e * d / Nat.lcm (p - 1) (q - 1)) + 1 := by
    conv_lhs => rw [← Nat.div_add_mod (e * d) (Nat.lcm (p - 1) (q - 1))]
    rw [hmod]
  rw [hed']
  have h1 := pow_mod_prime_of_dvd p k (Nat.lcm (p - 1) (q - 1))
    (e * d / Nat.lcm (p - 1) (q - 1)) hp (Nat.dvd_lcm_left _ _)
  have h2 := pow_mod_prime_of_dvd q k (Nat.lcm (p - 1) (q - 1))
    (e * d / Nat.lcm (p - 1) (q - 1)) hq (Nat.dvd_lcm_right _ _)
  exact (Nat.modEq_and_modEq_iff_modEq_mul
    ((Nat.coprime_primes hp hq).mpr hpq)).mp ⟨h1, h2⟩

/-- Correctness of the garbler's unmasking: `(v − x_b)^d mod n` recovers
the evaluator's `k`. -/
theorem ot_k_eq (p q e d k x : Nat) (hp : p.Prime) (hq : q.Prime)
    (hpq : p ≠ q) (hed : e * d ≡ 1 [MOD Nat.lcm (p - 1) (q - 1)])
    (hk : k < p * q) :
    ot_k (p * q) d (evaluator_v (p * q) e k x) x = k := by
  have hn : 0 < p * q := Nat.mul_pos hp.pos hq.pos
  have hrsa : k ^ (e * d) ≡ k [MOD p * q] := rsa_pow_ed p q e d k hp hq hpq hed
  have hvx : ((evaluator_v (p * q) e k x : Int) - x) ≡ (k : Int) ^ e [ZMOD (p * q)] := by
    unfold evaluator_v
    push_cast
    calc ((x : Int) + (k : Int) ^ e % (p * q)) % (p * q) - x
        ≡ ((x : Int) + (k : Int) ^ e % (p * q)) - x [ZMOD (p * q)] :=
          Int.ModEq.sub_right _ (Int.emod_emod_of_dvd _ dvd_rfl)
      _ = (k : Int) ^ e % (p * q) := by ring
      _ ≡ (k : Int) ^ e [ZMOD (p * q)] := Int.emod_emod_of_dvd _ dvd_rfl
  have hpow : ((evaluator_v (p * q) e k x : Int) - x) ^ d ≡ (k : Int) [ZMOD (p * q)] := by
    calc ((evaluator_v (p * q) e k x : Int) - x) ^ d
        ≡ ((k : Int) ^ e) ^ d [ZMOD (p * q)] := hvx.pow d
      _ = ((k ^ (e * d) : Nat) : Int) := by push_cast [← pow_mul]; ring
      _ ≡ ((k : Nat) : Int) [ZMOD (p * q)] := by
          unfold Int.ModEq
          unfold Nat.ModEq at hrsa
          push_cast [← Int.natCast_mod]
          exact_mod_cast hrsa
  unfold ot_k
  push_cast
  unfold Int.ModEq at hpow
  rw [hpow, Int.emod_eq_of_lt (by positivity) (by exact_mod_cast hk)]
  exact Int.toNat_natCast k

/-- C8.  For every message pair, choice bit, RSA key pair with
`e·d ≡ 1 (mod λ(N))` (`N = p·q`, distinct primes), and random values
`x0`, `x1`, `k` with `2 ≤ k ≤ N/2`: composing `evaluator_ot` with
`garbler_ot` delivers exactly `m_b` — the garbler's `k_b` equals `k`, so
the evaluator's difference is the big-endian integer of the serialized
`m_b`, which the stated byte length converts back. -/
theorem c8_ot_delivers_chosen_message {α : Type} (ser : α → List Nat)
    (deser : List Nat → Option α) (p q e d x0 x1 k : Nat) (m0 m1 : α)
    (b : Bool) (hp : p.Prime) (hq : q.Prime) (hpq : p ≠ q)
    (hed : e * d ≡ 1 [MOD Nat.lcm (p - 1) (q - 1)])
    (hk2 : 2 ≤ k) (hkn : k ≤ p * q / 2)
    (hser0 : ∀ v ∈ ser m0, v < 256) (hser1 : ∀ v ∈ ser m1, v < 256)
    (hdeser0 : deser (ser m0) = some m0) (hdeser1 : deser (ser m1) = some m1) :
    ot_exchange ser deser p q e d x0 x1 k m0 m1 b = some (if b then m1 else m0) := by
  have hn : 0 < p * q := Nat.mul_pos hp.pos hq.pos
  have hk : k < p * q := lt_of_le_of_lt hkn (Nat.div_lt_self hn (by omega))
  unfold ot_exchange
  cases b
  · simp only [Bool.false_eq_true, if_false, reduceIte]
    rw [ot_k_eq p q e d k x0 hp hq hpq hed hk]
    have hlt := fromBytesBE_lt (ser m0) hser0
    have harg : ((fromBytesBE (ser m0) + k : Nat) : Int) - (k : Int) =
        ((fromBytesBE (ser m0) : Nat) : Int) := by push_cast; ring
    rw [harg, if_pos ⟨Int.natCast_nonneg _, by rwa [Int.toNat_natCast]⟩,
      Int.toNat_natCast, toBytesBE_fromBytesBE (ser m0) hser0]
    exact hdeser0
  · simp only [if_true, reduceIte]
    rw [ot_k_eq p q e d k x1 hp hq hpq hed hk]
    have hlt := fromBytesBE_lt (ser m1) hser1
    have harg : ((fromBytesBE (ser m1) + k : Nat) : Int) - (k : Int) =
        ((fromBytesBE (ser m1) : Nat) : Int) := by push_cast; ring
    rw [harg, if_pos ⟨Int.natCast_nonneg _, by rwa [Int.toNat_natCast]⟩,
      Int.toNat_natCast, toBytesBE_fromBytesBE (ser m1) hser1]
    exact hdeser1

/-- Witness for C8 at a concrete input: `p = 3`, `q = 11`, `e = 3`,
`d = 7` (`21 ≡ 1 (mod lcm(2,10) = 10)`), `k = 2`, one-byte messages. -/
theorem c8_ot_delivers_chosen_message_witness :
    ot_exchange (fun l : List Nat => l) some 3 11 3 7 5 6 2 [9] [8] true =
      some [8] := by
  have h := c8_ot_delivers_chosen_message (fun l : List Nat => l) some
    3 11 3 7 5 6 2 [9] [8] true (by norm_num) (by norm_num) (by norm_num)
    (by decide) (by norm_num) (by norm_num)
    (by decide) (by decide) rfl rfl
  simpa using h

end ClaimC8

section ClaimC2

theorem cleanLabels_append (gs1 gs2 : List CleanGate) :
    cleanLabels (gs1 ++ gs2) = cleanLabels gs1 ++ cleanLabels gs2 := by
  induction gs1 with
  | nil => rfl
  | cons g gs ih =>
      simp only [List.cons_append, cleanLabels, List.foldr_cons] at *
      rw [ih]
      simp [List.append_assoc]

/-- C2 (counterexample).  The garbler's `hand_over_labels` sends its own
chosen leaf label as stored — with `represents` still set — contradicting
the claim that every label leaving the garbler is cleared:
`net.send_data(client, secret_label)` is reached without the
`represents = None` assignment, which only the OT branch performs. -/
theorem c2_plain_label_keeps_represents :
    hand_over_labels [(⟨⟨List.replicate 32 1, some false, some false⟩,
        ⟨List.replicate 32 2, some true, some true⟩⟩, some true)] =
      [SentMsg.plain ⟨List.replicate 32 2, some true, some true⟩] ∧
    (⟨List.replicate 32 2, some true, some true⟩ : LabelD).represents ≠
      none := by
  exact ⟨rfl, by decide⟩

/-- C2 (amended).  The labels fed into the oblivious transfer have
`represents` cleared, and the sanitized circuit produced by
`Circuit.clean` reaches no `Label` object at all (every wire reference is
blanked); but the leaf labels the garbler sends in plaintext for its own
input wires are the stored labels, `represents` included. -/
theorem c2_amended_ot_and_clean_clear (ws : List (WireD × Option Bool))
    (c : GCirc) :
    (∀ w b, (w, some b) ∈ ws →
      SentMsg.plain (if b then w.true_label else w.false_label) ∈
        hand_over_labels ws) ∧
    (∀ m0 m1, SentMsg.ot m0 m1 ∈ hand_over_labels ws →
      m0.represents = none ∧ m1.represents = none) ∧
    cleanLabels (cleanGates c) = [] := by
  refine ⟨?_, ?_, ?_⟩
  · intro w b hmem
    have := List.mem_map_of_mem (fun wb : WireD × Option Bool =>
      match wb.2 with
      | some bit => SentMsg.plain (if bit then wb.1.true_label else wb.1.false_label)
      | none => SentMsg.ot { wb.1.false_label with represents := none }
          { wb.1.true_label with represents := none }) hmem
    exact this
  · intro m0 m1 hmem
    rcases List.mem_map.mp hmem with ⟨⟨w, ob⟩, _, heq⟩
    cases ob with
    | some bit => simp at heq
    | none =>
        simp only [SentMsg.ot.injEq] at heq
        exact ⟨heq.1 ▸ rfl, heq.2 ▸ rfl⟩
  · induction c with
    | leaf gt lw rw ow tbl => rfl
    | node gt l r ow tbl ihl ihr =>
        simp only [cleanGates]
        rw [show (⟨gt, none, none, none, tbl⟩ : CleanGate) ::
          (cleanGates l ++ cleanGates r) =
          [⟨gt, none, none, none, tbl⟩] ++ (cleanGates l ++ cleanGates r)
          from rfl]
        rw [cleanLabels_append, cleanLabels_append, ihl, ihr]
        rfl

/-- Witness for the amended C2 at a concrete input. -/
theorem c2_amended_ot_and_clean_clear_witness :
    SentMsg.plain (mkLab 2 (some true) (some true)) ∈
      hand_over_labels [(mkW 1 2, some true), (mkW 3 4, none)] ∧
    (mkLab 3 none (some false)).represents = none ∧
    cleanLabels (cleanGates (.leaf .AND (mkW 1 2) (mkW 3 4) (mkW 5 6) [])) =
      [] := by
  have h := c2_amended_ot_and_clean_clear
    [(mkW 1 2, some true), (mkW 3 4, none)]
    (.leaf .AND (mkW 1 2) (mkW 3 4) (mkW 5 6) [])
  refine ⟨?_, ?_, h.2.2⟩
  · have := h.1 (mkW 1 2) true (by simp)
    simpa [mkW, mkLab] using this
  · have := h.2.1 { (mkW 3 4).false_label with represents := none }
      { (mkW 3 4).true_label with represents := none } (by simp [hand_over_labels])
    simpa [mkW, mkLab] using this.1

end ClaimC2

section ClaimC1

/-- C1 (failing run).  On the unbalanced circuit
`(A AND B) AND ((C OR D) AND (E AND F))` with inputs
`A=1, B=0, C=1, D=1, E=1, F=1`, the plaintext circuit value is `false`,
yet garbling every gate (point-and-permute, children before parent) and
reconstructing from the chosen input labels — supplied in the garbler's
`get_input_wires` order, as the protocol transfers them — returns the root
wire's `true` label.  `Circuit.reconstruct` consumes the label queue in
reversed level order (deepest level first), so the labels for wires `A`
and `B` are handed to the `(C OR D)` gate, while `get_input_wires` lists
the leaves in post-order; on any circuit with a shallow leaf gate to the
left of a deeper subtree the two orders disagree and the evaluation is
wrong.  (The run uses the identity instance of the cipher primitives; the
misrouting is independent of the cipher.) -/
theorem c1_roundtrip_fails_on_unbalanced_circuit :
    (garbleCirc papS idPrims id (fun _ => []) 0 c1Raw).map
      (fun gc => (evalPlain gc c1Bits).map Prod.fst) = some (some false) ∧
    (garbleCirc papS idPrims id (fun _ => []) 0 c1Raw).bind
      (fun gc => reconstruct papS idPrims gc c1Labels) =
      some ((mkW 21 22).get_label true) ∧
    (mkW 21 22).get_label true ≠ (mkW 21 22).get_label false := by
  exact ⟨by decide, by decide, by decide⟩

end ClaimC1

section ClaimC3

/-- C3 (counterexample).  A FleXOR XOR gate whose offsets satisfy
`R1 = R3` and `R2 ≠ R3` gets **two** table ciphertexts, not the single
`E_{B1}(B1')` the claim states: Python's chained comparison
`R1 != R2 != R3` means `R1 ≠ R2 and R2 ≠ R3`, which is already true here,
so the two-entry branch runs and the `elif R1 == R3` branch is
unreachable. -/
theorem c3_flexor_table_counterexample :
    xorBytes (List.replicate 32 0) (List.replicate 31 0 ++ [131]) =
      xorBytes (List.replicate 32 0) (List.replicate 31 0 ++ [131]) ∧
    xorBytes (List.replicate 32 0) (List.replicate 31 0 ++ [1]) ≠
      xorBytes (List.replicate 32 0) (List.replicate 31 0 ++ [131]) ∧
    (flexor_garble flexorS idPrims (fun _ => []) 0 GType.XOR
      ⟨⟨List.replicate 32 0, some false, some false⟩,
       ⟨List.replicate 31 0 ++ [131], some true, some true⟩⟩
      ⟨⟨List.replicate 32 0, some false, some true⟩,
       ⟨List.replicate 31 0 ++ [1], some true, some false⟩⟩
      ⟨⟨List.replicate 32 0, some false, some false⟩,
       ⟨List.replicate 31 0 ++ [131], some true, some true⟩⟩).map
      (fun res => countSome res.table) ≠ some 1 := by
  refine ⟨rfl, by decide, by decide⟩

/-- C3 (amended).  The actual table shape of `Gate.flexor_garble` for an
XOR gate, with `R1 = A0⊕A1`, `R2 = B0⊕B1`, `R3 = C0⊕C1` (after the output
wire is adjusted): if `R1 = R2 = R3` the call raises (`free_xor_garble`
reads the unset `settings.R` in FleXOR mode); if `R1 ≠ R2` and `R2 ≠ R3`
— which includes the `R1 = R3 ≠ R2` case the claim assigns one entry —
the table holds exactly the two ciphertexts `E_{A1}(A1')` at index
`left.true_label.pp_bit` and `E_{B1}(B1')` at `right.true_label.pp_bit + 2`;
if `R1 = R2 ≠ R3` the table is empty; if `R2 = R3` and `R1 ≠ R2`, exactly
the one ciphertext `E_{A1}(A1')` at `left.true_label.pp_bit`. -/
theorem c3_flexor_table_shape (P : Prims) (rand : Nat → List Nat)
    (fuel : Nat) (lw rw ow out : WireD) (res : GRes)
    (hadj : adjust_wire_offset rand fuel 0 ow = some out) :
    ((xorBytes lw.false_label.bytes lw.true_label.bytes =
        xorBytes rw.false_label.bytes rw.true_label.bytes ∧
      xorBytes rw.false_label.bytes rw.true_label.bytes =
        xorBytes out.false_label.bytes out.true_label.bytes) →
      flexor_garble flexorS P rand fuel GType.XOR lw rw ow = none) ∧
    (flexor_garble flexorS P rand fuel GType.XOR lw rw ow = some res →
      ((xorBytes lw.false_label.bytes lw.true_label.bytes ≠
          xorBytes rw.false_label.bytes rw.true_label.bytes ∧
        xorBytes rw.false_label.bytes rw.true_label.bytes ≠
          xorBytes out.false_label.bytes out.true_label.bytes) →
        countSome res.table = 2 ∧
        res.table.get? (if get_last_bit (AESKey.decrypt P
            lw.false_label.bytes zeroBlock false true) then 0 else 1) =
          some (some (AESKey.encrypt P lw.true_label.bytes
            (xorBytes (AESKey.decrypt P lw.false_label.bytes zeroBlock false true)
              (xorBytes out.false_label.bytes out.true_label.bytes)) false true)) ∧
        res.table.get? ((if get_last_bit (AESKey.decrypt P
            rw.false_label.bytes zeroBlock false true) then 0 else 1) + 2) =
          some (some (AESKey.encrypt P rw.true_label.bytes
            (xorBytes (AESKey.decrypt P rw.false_label.bytes zeroBlock false true)
              (xorBytes out.false_label.bytes out.true_label.bytes)) false true))) ∧
      ((xorBytes lw.false_label.bytes lw.true_label.bytes =
          xorBytes rw.false_label.bytes rw.true_label.bytes ∧
        xorBytes rw.false_label.bytes rw.true_label.bytes ≠
          xorBytes out.false_label.bytes out.true_label.bytes) →
        countSome res.table = 0) ∧
      ((xorBytes lw.false_label.bytes lw.true_label.bytes ≠
          xorBytes rw.false_label.bytes rw.true_label.bytes ∧
        xorBytes rw.false_label.bytes rw.true_label.bytes =
          xorBytes out.false_label.bytes out.true_label.bytes) →
        countSome res.table = 1 ∧
        res.table.get? (if get_last_bit (AESKey.decrypt P
            lw.false_label.bytes zeroBlock false true) then 0 else 1) =
          some (some (AESKey.encrypt P lw.true_label.bytes
            (xorBytes (AESKey.decrypt P lw.false_label.bytes zeroBlock false true)
              (xorBytes out.false_label.bytes out.true_label.bytes)) false true)))) := by
  constructor
  · rintro ⟨h12, h23⟩
    unfold flexor_garble
    rw [if_pos rfl]
    simp only [Option.bind_eq_bind, Option.pure_def, hadj, Option.some_bind]
    rw [if_pos ⟨h12, h23⟩]
    exact free_xor_garble_xor_no_R flexorS P rfl _ _ _ _
  · intro h
    unfold flexor_garble at h
    rw [if_pos rfl] at h
    simp only [Option.bind_eq_bind, Option.pure_def, hadj, Option.some_bind] at h
    split at h
    · -- R1 = R2 ∧ R2 = R3: raises
      rw [free_xor_garble_xor_no_R flexorS P rfl] at h
      cases h
    rename_i hc1
    split at h
    · -- R1 ≠ R2 ∧ R2 ≠ R3: two entries
      rename_i hc2
      simp only [modify_pp_bits, ppNat, Option.some_bind, Option.some_inj] at h
      subst h
      refine ⟨fun _ => ?_, fun hcon => absurd hcon.1 hc2.1,
        fun hcon => absurd hcon.2 hc2.2⟩
      cases hA : get_last_bit (AESKey.decrypt P lw.false_label.bytes
          zeroBlock false true) <;>
        cases hB : get_last_bit (AESKey.decrypt P rw.false_label.bytes
          zeroBlock false true) <;>
        simp only [hA, hB, Bool.not_false, Bool.not_true] <;>
        exact ⟨rfl, rfl, rfl⟩
    rename_i hc2
    split at h
    · -- R1 = R3: unreachable given the previous two branches failed
      rename_i hc3
      exfalso
      rcases not_and_or.mp hc2 with h12 | h23
      · have h12' := not_not.mp h12
        exact hc1 ⟨h12', h12'.symm.trans hc3⟩
      · have h23' := not_not.mp h23
        exact hc1 ⟨hc3.trans h23'.symm, h23'⟩
    rename_i hc3
    split at h
    · -- R2 = R3: one entry
      rename_i hc4
      simp only [modify_pp_bits, ppNat, Option.some_bind, Option.some_inj] at h
      subst h
      refine ⟨fun hcon => absurd hc4 hcon.2, fun hcon => absurd hc4 hcon.2,
        fun _ => ?_⟩
      cases hA : get_last_bit (AESKey.decrypt P lw.false_label.bytes
          zeroBlock false true) <;>
        simp only [hA, Bool.not_false, Bool.not_true] <;>
        exact ⟨rfl, rfl⟩
    · -- remaining case: R1 = R2 ≠ R3, no entries
      rename_i hc4
      simp only [Option.some_inj] at h
      subst h
      exact ⟨fun hcon => absurd hcon hc2, fun _ => rfl,
        fun hcon => absurd hcon.2 hc4⟩

/-- Witness for the amended C3 at a concrete input (the same offsets as
the counterexample: `R1 = R3 ≠ R2`, two entries). -/
theorem c3_flexor_table_shape_witness :
    (flexor_garble flexorS idPrims (fun _ => []) 0 GType.XOR
      ⟨⟨List.replicate 32 0, some false, some false⟩,
       ⟨List.replicate 31 0 ++ [131], some true, some true⟩⟩
      ⟨⟨List.replicate 32 0, some false, some true⟩,
       ⟨List.replicate 31 0 ++ [1], some true, some false⟩⟩
      ⟨⟨List.replicate 32 0, some false, some false⟩,
       ⟨List.replicate 31 0 ++ [131], some true, some true⟩⟩).map
      (fun res => countSome res.table) = some 2 := by
  cases hres : flexor_garble flexorS idPrims (fun _ => []) 0 GType.XOR
      ⟨⟨List.replicate 32 0, some false, some false⟩,
       ⟨List.replicate 31 0 ++ [131], some true, some true⟩⟩
      ⟨⟨List.replicate 32 0, some false, some true⟩,
       ⟨List.replicate 31 0 ++ [1], some true, some false⟩⟩
      ⟨⟨List.replicate 32 0, some false, some false⟩,
       ⟨List.replicate 31 0 ++ [131], some true, some true⟩⟩ with
  | none => exact absurd hres (by decide)
  | some res =>
      have h := (c3_flexor_table_shape idPrims (fun _ => []) 0
        ⟨⟨List.replicate 32 0, some false, some false⟩,
         ⟨List.replicate 31 0 ++ [131], some true, some true⟩⟩
        ⟨⟨List.replicate 32 0, some false, some true⟩,
         ⟨List.replicate 31 0 ++ [1], some true, some false⟩⟩
        ⟨⟨List.replicate 32 0, some false, some false⟩,
         ⟨List.replicate 31 0 ++ [131], some true, some true⟩⟩
        ⟨⟨List.replicate 32 0, some false, some false⟩,
         ⟨List.replicate 31 0 ++ [131], some true, some true⟩⟩
        res (by decide)).2 hres
      have h2 := (h.1 ⟨by decide, by decide⟩).1
      simp [hres, h2]

end ClaimC3

end Gabes
